import Mathlib

/-!
Verification development for the patent-drawing-parser repository.

The Python sources (`src/pdf_utils.py`, `src/vision_lmm.py`) are embedded
shallowly: strings are Lean `String`s, regular-expression tests are
translated into explicit character-list scans that implement the same
matching semantics, `json.loads` is embedded as an executable recursive
descent parser over a `JValue` type, and the stateful merge loop of
`extract_figures_with_lmm` is embedded as a fold over an association list.
Rational arithmetic stands in for Python float arithmetic where the code
divides coordinates (`width / 800`); the float rounding error itself is not
modelled.
-/

namespace PatentParser

/-! ## Character classes (ASCII, mirroring Python str methods and regex classes) -/

/-- Whitespace stripped by Python `str.strip()` (ASCII portion). -/
def isPyWsChar (c : Char) : Bool :=
  c = ' ' || c = '\t' || c = '\n' || c = '\r' || c = '\x0b' || c = '\x0c'

/-- Python `str.strip()`: drop leading and trailing whitespace. -/
def pyStrip (s : String) : String :=
  String.mk (((s.data.dropWhile isPyWsChar).reverse.dropWhile isPyWsChar).reverse)

/-- The regex class `[a-zA-Z0-9\-]` of `_COMPONENT_RE`. -/
def isMainChar (c : Char) : Bool := c.isAlphanum || c = '-'

/-- The regex class `['\"]` (prime marks) of `_COMPONENT_RE`. -/
def isPrimeChar (c : Char) : Bool := c = '\'' || c = '"'

/-- Python `str.isdigit()` on ASCII text: nonempty and all digits. -/
def isDigitStr (s : String) : Bool := !s.data.isEmpty && s.data.all Char.isDigit

/-- Value of a digit run, as `int()` computes it from a decimal string. -/
def digitsToNat (cs : List Char) : Nat :=
  cs.foldl (fun n c => n * 10 + (c.toNat - '0'.toNat)) 0

/-! ## `_COMPONENT_RE = ^(?P<main>[a-zA-Z0-9\-]+)(?P<prime>['\"]{0,2})$`

Since the main class and the prime class are disjoint, a full match
decomposes uniquely: `main` is the maximal leading run of main characters
and `prime` is whatever follows, which must be at most two prime marks. -/

/-- `main` group of the component regex: maximal leading run of `[a-zA-Z0-9\-]`. -/
def componentMain (s : String) : List Char := s.data.takeWhile isMainChar

/-- Remainder after the `main` group (the candidate `prime` group). -/
def componentPrime (s : String) : List Char := s.data.dropWhile isMainChar

/-- `_COMPONENT_RE.fullmatch(s)` succeeds. -/
def matchesComponent (s : String) : Bool :=
  !(componentMain s).isEmpty
    && (componentPrime s).length ≤ 2
    && (componentPrime s).all isPrimeChar

/-- `re.match(r"(\d+)", main)` in `_component_sort_key`: leading digit run as
an integer, `0` when `main` does not start with a digit. -/
def leadingNumber (cs : List Char) : Nat :=
  digitsToNat (cs.takeWhile Char.isDigit)

/-- The prime-suffix ranking table of `_component_sort_key`. -/
def primeRank (p : List Char) : Nat :=
  if p = [] then 0
  else if p = ['\''] then 1
  else if p = ['"'] then 2
  else if p = ['\'', '\''] then 3
  else if p = ['"', '"'] then 4
  else 9

/-- Python `str.lower()` on the ASCII main part. -/
def lowerChars (cs : List Char) : List Char := cs.map Char.toLower

/-- `_component_sort_key` from `src/vision_lmm.py`: strip, full-match the
component regex; on a match the key is `(leading number, lowercased main,
prime rank)`, otherwise `(9999, stripped string, 9)`. -/
def componentSortKey (s : String) : Nat × String × Nat :=
  if matchesComponent (pyStrip s) then
    (leadingNumber (componentMain (pyStrip s)),
      String.mk (lowerChars (componentMain (pyStrip s))),
      primeRank (componentPrime (pyStrip s)))
  else
    (9999, pyStrip s, 9)

/-! ## Lexicographic comparison of key triples (Python tuple `<` / `<=`) -/

def lex3lt {α β γ : Type} [LinearOrder α] [LinearOrder β] [LinearOrder γ]
    (a b : α × β × γ) : Prop :=
  a.1 < b.1 ∨ (a.1 = b.1 ∧ (a.2.1 < b.2.1 ∨ (a.2.1 = b.2.1 ∧ a.2.2 < b.2.2)))

def lex3le {α β γ : Type} [LinearOrder α] [LinearOrder β] [LinearOrder γ]
    (a b : α × β × γ) : Prop :=
  lex3lt a b ∨ a = b

instance {α β γ : Type} [LinearOrder α] [LinearOrder β] [LinearOrder γ] :
    DecidableRel (@lex3lt α β γ _ _ _) := by
  intro a b; unfold lex3lt; infer_instance

instance {α β γ : Type} [LinearOrder α] [LinearOrder β] [LinearOrder γ] :
    DecidableRel (@lex3le α β γ _ _ _) := by
  intro a b; unfold lex3le; infer_instance

theorem lex3lt_trans {α β γ : Type} [LinearOrder α] [LinearOrder β] [LinearOrder γ]
    {a b c : α × β × γ} (h1 : lex3lt a b) (h2 : lex3lt b c) : lex3lt a c := by
  rcases h1 with h1 | ⟨e1, h1⟩ <;> rcases h2 with h2 | ⟨e2, h2⟩
  · exact Or.inl (lt_trans h1 h2)
  · exact Or.inl (e2 ▸ h1)
  · exact Or.inl (e1 ▸ h2)
  · refine Or.inr ⟨e1.trans e2, ?_⟩
    rcases h1 with h1 | ⟨f1, h1⟩ <;> rcases h2 with h2 | ⟨f2, h2⟩
    · exact Or.inl (lt_trans h1 h2)
    · exact Or.inl (f2 ▸ h1)
    · exact Or.inl (f1 ▸ h2)
    · exact Or.inr ⟨f1.trans f2, lt_trans h1 h2⟩

theorem lex3le_trans {α β γ : Type} [LinearOrder α] [LinearOrder β] [LinearOrder γ]
    {a b c : α × β × γ} (h1 : lex3le a b) (h2 : lex3le b c) : lex3le a c := by
  rcases h1 with h1 | rfl
  · rcases h2 with h2 | rfl
    · exact Or.inl (lex3lt_trans h1 h2)
    · exact Or.inl h1
  · exact h2

theorem lex3le_total {α β γ : Type} [LinearOrder α] [LinearOrder β] [LinearOrder γ]
    (a b : α × β × γ) : lex3le a b ∨ lex3le b a := by
  rcases lt_trichotomy a.1 b.1 with h | h | h
  · exact Or.inl (Or.inl (Or.inl h))
  · rcases lt_trichotomy a.2.1 b.2.1 with h' | h' | h'
    · exact Or.inl (Or.inl (Or.inr ⟨h, Or.inl h'⟩))
    · rcases lt_trichotomy a.2.2 b.2.2 with h'' | h'' | h''
      · exact Or.inl (Or.inl (Or.inr ⟨h, Or.inr ⟨h', h''⟩⟩))
      · refine Or.inl (Or.inr ?_)
        obtain ⟨a1, a2, a3⟩ := a; obtain ⟨b1, b2, b3⟩ := b
        simp_all
      · exact Or.inr (Or.inl (Or.inr ⟨h.symm, Or.inr ⟨h'.symm, h''⟩⟩))
    · exact Or.inr (Or.inl (Or.inr ⟨h.symm, Or.inl h'⟩))
  · exact Or.inr (Or.inl (Or.inl h))

/-- The ordering on component strings induced by `_component_sort_key`
(Python `sorted(..., key=_component_sort_key)` compares key tuples). -/
def compLE (s t : String) : Prop := lex3le (componentSortKey s) (componentSortKey t)

instance : DecidableRel compLE := by
  intro s t; unfold compLE; infer_instance

instance : IsTotal String compLE :=
  ⟨fun s t => lex3le_total (componentSortKey s) (componentSortKey t)⟩

instance : IsTrans String compLE :=
  ⟨fun _ _ _ h1 h2 => lex3le_trans h1 h2⟩

/-- `sorted(..., key=_component_sort_key)` (a stable sort by the key). -/
def sortComponents (l : List String) : List String := l.insertionSort compLE

/-! ## `_normalize_figure`

`re.search(r"(\d+)\s*([A-Za-z])?$", s)` on a stripped string: the match is
anchored at the end, so it exists exactly when `s` ends either in a digit
run, or in a digit run followed by whitespace and one ASCII letter.  The
leftmost-greedy search takes the maximal such digit run, which we read off
the reversed character list. -/

/-- The trailing `(\d+)\s*([A-Za-z])?$` search: `some (digits, letter?)` on a
match (digits in original order), `none` when the anchored pattern fails. -/
def splitTrailingFig (cs : List Char) : Option (List Char × Option Char) :=
  match cs.reverse with
  | [] => none
  | c :: rest =>
    if c.isDigit then
      some (((c :: rest).takeWhile Char.isDigit).reverse, none)
    else if c.isAlpha then
      let afterWs := rest.dropWhile isPyWsChar
      let dsRev := afterWs.takeWhile Char.isDigit
      if dsRev.isEmpty then none else some (dsRev.reverse, some c)
    else none

/-- `re.search(r"\d+", s)`: the first digit run in the string, if any. -/
def firstDigitRun (cs : List Char) : Option (List Char) :=
  let tail := cs.dropWhile (fun c => !c.isDigit)
  match tail with
  | [] => none
  | _ => some (tail.takeWhile Char.isDigit)

/-- `_normalize_figure` restricted to string input (`src/vision_lmm.py`). -/
def normalizeFigureStr (fig : String) : String :=
  match splitTrailingFig (pyStrip fig).data with
  | some (ds, tail) =>
    "FIG. " ++ String.mk ds ++
      (match tail with
       | some c => String.mk [c.toUpper]
       | none => "")
  | none =>
    match firstDigitRun (pyStrip fig).data with
    | some ds => "FIG. " ++ String.mk ds
    | none => ""

/-! ## `_figure_sort_key` -/

/-- `_figure_sort_key`: `(first digit run as int or 0, trailing uppercase
letter or "")`. -/
def figureSortKey (fig : String) : Nat × String :=
  let num := match firstDigitRun fig.data with
    | some ds => digitsToNat ds
    | none => 0
  let suf := match fig.data.getLast? with
    | some c => if 'A' ≤ c ∧ c ≤ 'Z' then String.mk [c] else ""
    | none => ""
  (num, suf)

/-- The sort key used in `extract_figures_with_lmm`'s final sort:
`lambda x: (x[0], _figure_sort_key(x[1]))` on `(page, figure)` keys,
flattened into a triple for lexicographic comparison. -/
def finalKeyLE (a b : Nat × String) : Prop :=
  lex3le (a.1, figureSortKey a.2) (b.1, figureSortKey b.2)

instance : DecidableRel finalKeyLE := by
  intro a b; unfold finalKeyLE; infer_instance

instance : IsTotal (Nat × String) finalKeyLE :=
  ⟨fun a b => lex3le_total (a.1, figureSortKey a.2) (b.1, figureSortKey b.2)⟩

instance : IsTrans (Nat × String) finalKeyLE :=
  ⟨fun _ _ _ h1 h2 => lex3le_trans h1 h2⟩

/-! ## OCR-hint patterns (`src/pdf_utils.py`) -/

/-- `re.compile(r"FIG[\.\s]*\d+", re.I).match(s)`: a prefix match, so the
string must start with `fig` (any case), then dots/whitespace, then a
digit.  The class `[\.\s]` contains no digit, so greediness is harmless. -/
def figPrefixMatch (s : String) : Bool :=
  match s.data with
  | f :: i :: g :: rest =>
    f.toLower = 'f' && i.toLower = 'i' && g.toLower = 'g'
      && (match (rest.dropWhile (fun c => c = '.' || isPyWsChar c)) with
          | d :: _ => d.isDigit
          | [] => false)
  | _ => false

/-- `re.compile(r"^\d+[A-Za-z]?['\"]{0,2}$").match(s)` (anchored, so a full
match): one or more digits, an optional single letter, then at most two
prime marks.  The three classes are disjoint, so the decomposition is
unique. -/
def compHintMatch (s : String) : Bool :=
  let ds := s.data.takeWhile Char.isDigit
  let rest := s.data.dropWhile Char.isDigit
  let rest' := match rest with
    | c :: tl => if c.isAlpha then tl else rest
    | [] => []
  !ds.isEmpty && rest'.length ≤ 2 && rest'.all isPrimeChar

/-! ## JSON values and `json.loads`

`json.loads` is embedded as a fuelled recursive-descent parser over the
JSON grammar Python's `json` module accepts (strict mode): values are
`null`, `true`, `false`, numbers, strings with escapes, arrays and objects;
whitespace is space, tab, newline and carriage return; the whole input must
be consumed.  Number literals are kept as their lexeme (the claims never
compare parsed numbers arithmetically). -/

inductive JValue where
  | null : JValue
  | bool (b : Bool) : JValue
  | num (lit : String) : JValue
  | str (s : String) : JValue
  | arr (elems : List JValue) : JValue
  | obj (fields : List (String × JValue)) : JValue

/-- Whether a parsed JSON value is an array (a Python `list`). -/
def JValue.isArr : JValue → Bool
  | .arr _ => true
  | _ => false

/-- Whether a parsed JSON value is a string (Python `isinstance(v, str)`). -/
def JValue.isStr : JValue → Bool
  | .str _ => true
  | _ => false

/-- JSON whitespace (RFC 8259 / Python `json`). -/
def isJsonWs (c : Char) : Bool := c = ' ' || c = '\t' || c = '\n' || c = '\r'

def skipJsonWs (cs : List Char) : List Char := cs.dropWhile isJsonWs

/-- Hex digit value for `\uXXXX` escapes. -/
def hexVal? (c : Char) : Option Nat :=
  if c.isDigit then some (c.toNat - '0'.toNat)
  else if 'a' ≤ c ∧ c ≤ 'f' then some (c.toNat - 'a'.toNat + 10)
  else if 'A' ≤ c ∧ c ≤ 'F' then some (c.toNat - 'A'.toNat + 10)
  else none

/-- Body of a JSON string literal after the opening quote: returns the
decoded string and the remainder after the closing quote.  Strict mode:
unescaped control characters and unknown escapes are errors. -/
def jstringAux : List Char → List Char → Option (String × List Char)
  | [], _ => none
  | '"' :: rest, acc => some (String.mk acc.reverse, rest)
  | '\\' :: '"' :: rest, acc => jstringAux rest ('"' :: acc)
  | '\\' :: '\\' :: rest, acc => jstringAux rest ('\\' :: acc)
  | '\\' :: '/' :: rest, acc => jstringAux rest ('/' :: acc)
  | '\\' :: 'b' :: rest, acc => jstringAux rest ('\x08' :: acc)
  | '\\' :: 'f' :: rest, acc => jstringAux rest ('\x0c' :: acc)
  | '\\' :: 'n' :: rest, acc => jstringAux rest ('\n' :: acc)
  | '\\' :: 'r' :: rest, acc => jstringAux rest ('\r' :: acc)
  | '\\' :: 't' :: rest, acc => jstringAux rest ('\t' :: acc)
  | '\\' :: 'u' :: a :: b :: c :: d :: rest, acc =>
    match hexVal? a, hexVal? b, hexVal? c, hexVal? d with
    | some va, some vb, some vc, some vd =>
      jstringAux rest (Char.ofNat (((va * 16 + vb) * 16 + vc) * 16 + vd) :: acc)
    | _, _, _, _ => none
  | '\\' :: _, _ => none
  | c :: rest, acc => if c.toNat < 0x20 then none else jstringAux rest (c :: acc)

/-- A JSON number lexeme `-?(0|[1-9][0-9]*)(\.[0-9]+)?([eE][+-]?[0-9]+)?`
starting the input: `some (lexeme, rest)` or `none`. -/
def jnumber (cs : List Char) : Option (List Char × List Char) :=
  let (sign, cs1) := match cs with
    | '-' :: tl => (['-'], tl)
    | _ => ([], cs)
  let intPart := cs1.takeWhile Char.isDigit
  let cs2 := cs1.dropWhile Char.isDigit
  if intPart.isEmpty then none
  else if intPart.length > 1 && intPart.head? = some '0' then none
  else
    let (fracPart, cs3) := match cs2 with
      | '.' :: tl =>
        let ds := tl.takeWhile Char.isDigit
        if ds.isEmpty then ([], cs2) else ('.' :: ds, tl.dropWhile Char.isDigit)
      | _ => ([], cs2)
    if cs3 ≠ cs2 ∧ fracPart = [] then none
    else
      let (expPart, cs4) := match cs3 with
        | e :: tl =>
          if e = 'e' ∨ e = 'E' then
            let (es, tl2) := match tl with
              | s :: tl2 => if s = '+' ∨ s = '-' then ([e, s], tl2) else ([e], tl)
              | [] => ([e], tl)
            let ds := tl2.takeWhile Char.isDigit
            if ds.isEmpty then ([], cs3) else (es ++ ds, tl2.dropWhile Char.isDigit)
          else ([], cs3)
        | [] => ([], cs3)
      some (sign ++ intPart ++ fracPart ++ expPart, cs4)

mutual

/-- Fuelled JSON value parser (mutually with array and object bodies). -/
def jvalue : Nat → List Char → Option (JValue × List Char)
  | 0, _ => none
  | fuel + 1, cs =>
    match skipJsonWs cs with
    | 'n' :: 'u' :: 'l' :: 'l' :: rest => some (.null, rest)
    | 't' :: 'r' :: 'u' :: 'e' :: rest => some (.bool true, rest)
    | 'f' :: 'a' :: 'l' :: 's' :: 'e' :: rest => some (.bool false, rest)
    | '"' :: rest =>
      match jstringAux rest [] with
      | some (s, r) => some (.str s, r)
      | none => none
    | '[' :: rest =>
      (match skipJsonWs rest with
       | ']' :: r2 => some (.arr [], r2)
       | r => jarr fuel r [])
    | '{' :: rest =>
      (match skipJsonWs rest with
       | '}' :: r2 => some (.obj [], r2)
       | r => jobj fuel r [])
    | cs' =>
      match jnumber cs' with
      | some (lit, r) => some (.num (String.mk lit), r)
      | none => none

/-- Array body: one or more comma-separated values then `]`. -/
def jarr : Nat → List Char → List JValue → Option (JValue × List Char)
  | 0, _, _ => none
  | fuel + 1, cs, acc =>
    match jvalue fuel cs with
    | some (v, rest) =>
      (match skipJsonWs rest with
       | ',' :: r2 => jarr fuel (skipJsonWs r2) (v :: acc)
       | ']' :: r2 => some (.arr (v :: acc).reverse, r2)
       | _ => none)
    | none => none

/-- Object body: one or more `"key": value` pairs then `}`. -/
def jobj : Nat → List Char → List (String × JValue) → Option (JValue × List Char)
  | 0, _, _ => none
  | fuel + 1, cs, acc =>
    match cs with
    | '"' :: rest =>
      (match jstringAux rest [] with
       | some (k, r1) =>
         (match skipJsonWs r1 with
          | ':' :: r2 =>
            (match jvalue fuel (skipJsonWs r2) with
             | some (v, r3) =>
               (match skipJsonWs r3 with
                | ',' :: r4 => jobj fuel (skipJsonWs r4) ((k, v) :: acc)
                | '}' :: r4 => some (.obj ((k, v) :: acc).reverse, r4)
                | _ => none)
             | none => none)
          | _ => none)
       | none => none)
    | _ => none

end

/-- `json.loads`: parse one value and require the rest to be whitespace. -/
def jloads (s : String) : Option JValue :=
  match jvalue (s.length + 1) s.data with
  | some (v, rest) => if skipJsonWs rest = [] then some v else none
  | none => none

/-! ## `_parse_json_array` (`src/vision_lmm.py`) -/

/-- The backquote character (code 96), written by code point. -/
def fenceChar : Char := Char.ofNat 96

/-- Whether a character list starts with three backquotes. -/
def startsFence (cs : List Char) : Bool :=
  match cs with
  | a :: b :: c :: _ => a = fenceChar && b = fenceChar && c = fenceChar
  | _ => false

/-- One step of `re.sub(r"```(?:json)?\n?|\n?```", "", txt)`: fuelled
left-to-right scan; at each position the first alternative (three
backquotes, optional `json`, optional newline, each greedy) is tried before
the second (newline then three backquotes). -/
def stripFencesAux : Nat → List Char → List Char
  | 0, cs => cs
  | fuel + 1, cs =>
    match cs with
    | [] => []
    | c :: rest =>
      if startsFence cs then
        let r1 := cs.drop 3
        let r2 := match r1 with
          | 'j' :: 's' :: 'o' :: 'n' :: tl => tl
          | _ => r1
        let r3 := match r2 with
          | '\n' :: tl => tl
          | _ => r2
        stripFencesAux fuel r3
      else if c = '\n' && startsFence rest then
        stripFencesAux fuel (rest.drop 3)
      else
        c :: stripFencesAux fuel rest

/-- `re.sub(r"```(?:json)?\n?|\n?```", "", txt)`. -/
def stripFences (s : String) : String :=
  String.mk (stripFencesAux (s.length + 1) s.data)

/-- `re.search(r"(\[.*\])", txt, re.DOTALL)`: the substring from the first
`[` (that has a `]` somewhere after it) to the last `]` of the string. -/
def extractBrackets (s : String) : Option String :=
  let afterFirst := s.data.dropWhile (fun c => c ≠ '[')
  if afterFirst.isEmpty then none
  else
    let revKept := afterFirst.reverse.dropWhile (fun c => c ≠ ']')
    if revKept.isEmpty then none
    else some (String.mk revKept.reverse)

/-- The tail `'"]}]'` appended by the naive truncation repair. -/
def repairTail : String := String.mk ['"', ']', Char.ofNat 125, ']']

/-- The preprocessing `_parse_json_array` applies before the first parse
attempt: strip, then remove markdown fences when the text starts with
three backquotes. -/
def fencePreprocess (txt : String) : String :=
  let t0 := pyStrip txt
  if startsFence t0.data then stripFences t0 else t0

/-- `_parse_json_array` from `src/vision_lmm.py`.  The Python function
returns whatever `json.loads` yields on success (annotated `List[Dict]` but
unchecked); failure paths return the empty list.  The result is therefore a
`JValue`, with `.arr []` for Python's `[]`. -/
def parseJsonArray (txt : String) : JValue :=
  if txt = "" then .arr []
  else
    match jloads (fencePreprocess txt) with
    | some v => v
    | none =>
      match extractBrackets (fencePreprocess txt) with
      | some sub =>
        (match jloads sub with
         | some v => v
         | none =>
           (match jloads (if sub.data.getLast? = some ']' then sub
                          else sub ++ repairTail) with
            | some v => v
            | none => .arr []))
      | none => .arr []

/-! ## `_clean_components` (`src/vision_lmm.py`) -/

/-- `isinstance(c, str)` extraction from a parsed JSON list element. -/
def jvalToStr? : JValue → Option String
  | .str s => some s
  | _ => none

/-- `_clean_components` on the string elements (after the `isinstance`
filter): strip, keep component-regex matches, conditionally drop
single-digit pure numbers, deduplicate, sort by the component key. -/
def cleanComponentsStr (comps : List String) : List String :=
  let kept := (comps.map pyStrip).filter matchesComponent
  if kept.isEmpty then []
  else
    let pureNumbers := kept.filter isDigitStr
    let hasMultiDigit := pureNumbers.any (fun c => 2 ≤ c.length)
    let kept2 :=
      if hasMultiDigit then kept.filter (fun c => !(isDigitStr c && c.length < 2))
      else kept
    sortComponents kept2.dedup

/-- `_clean_components` on a parsed JSON list (non-strings are discarded by
the `isinstance(c, str)` comprehension filter). -/
def cleanComponents (comps : List JValue) : List String :=
  cleanComponentsStr (comps.filterMap jvalToStr?)

/-! ## The merge loop of `extract_figures_with_lmm` (`src/vision_lmm.py`) -/

/-- `_normalize_figure` on a parsed JSON value (non-strings map to `""`). -/
def normalizeFigure : JValue → String
  | .str s => normalizeFigureStr s
  | _ => ""

/-- One parsed model entry: `item.get("figure", "")`,
`item.get("components", [])` and the optional `"hierarchy"` list.  An
absent `figure` key is `.str ""` (the Python default). -/
structure HEntry where
  figure : JValue
  components : List JValue
  hierarchy : Option (List JValue)

/-- One value of the `merged` dict. -/
structure MRecord where
  page : Nat
  figure : String
  components : List String
  hierarchy : List JValue

/-- Association-list lookup on the `merged` dict (keys are unique). -/
def alookup : List ((Nat × String) × MRecord) → Nat × String → Option MRecord
  | [], _ => none
  | (k', r) :: rest, k => if k' = k then some r else alookup rest k

/-- In-place value update for an existing key of the `merged` dict. -/
def aupdate : List ((Nat × String) × MRecord) → Nat × String → MRecord →
    List ((Nat × String) × MRecord)
  | [], _, _ => []
  | (k', r) :: rest, k, v =>
    if k' = k then (k', v) :: rest else (k', r) :: aupdate rest k v

/-- The body of `for item in res or []` in `extract_figures_with_lmm`:
drop entries with an empty normalized figure, create the record on first
sighting (Python dicts append new keys at the end), union-and-sort the
cleaned components into it, and extend its hierarchy list verbatim. -/
def mergeStep (pno : Nat) (m : List ((Nat × String) × MRecord)) (e : HEntry) :
    List ((Nat × String) × MRecord) :=
  let fig := normalizeFigure e.figure
  if fig = "" then m
  else
    let k := (pno, fig)
    let rec0 := (alookup m k).getD ⟨pno, fig, [], []⟩
    let rec1 : MRecord :=
      { page := rec0.page, figure := rec0.figure,
        components := sortComponents ((rec0.components ++ cleanComponents e.components).dedup),
        hierarchy := rec0.hierarchy ++ e.hierarchy.getD [] }
    match alookup m k with
    | some _ => aupdate m k rec1
    | none => m ++ [(k, rec1)]

/-- The merge over a flattened sequence of `(page number, entry)` pairs. -/
def mergeEntries (entries : List (Nat × HEntry)) : List ((Nat × String) × MRecord) :=
  entries.foldl (fun m pe => mergeStep pe.1 m pe.2) []

/-- The orchestrator's page loop shape: per page, all of that page's parsed
entries are merged in order. -/
def runMerge (pages : List (Nat × List HEntry)) : List ((Nat × String) × MRecord) :=
  pages.foldl (fun m pg => pg.2.foldl (fun m' e => mergeStep pg.1 m' e) m) []

/-- `sorted(merged.keys(), key=lambda x: (x[0], _figure_sort_key(x[1])))`. -/
def sortedRecKeys (m : List ((Nat × String) × MRecord)) : List (Nat × String) :=
  (m.map Prod.fst).insertionSort finalKeyLE

/-- The final record list, in output order. -/
def finalRecords (entries : List (Nat × HEntry)) : List MRecord :=
  let m := mergeEntries entries
  (sortedRecKeys m).map (fun k => (alookup m k).getD ⟨0, "", [], []⟩)

/-- The `OrderedDict` built for each output item: the serialized field
list, in the enforced order `components, hierarchy, figure, page`. -/
def serializeRecord (r : MRecord) : List (String × JValue) :=
  [("components", .arr (r.components.map .str)),
   ("hierarchy", .arr r.hierarchy),
   ("figure", .str r.figure),
   ("page", .num (toString r.page))]

/-- `final_output` of `extract_figures_with_lmm`, given the parsed model
entries per page (the model call itself is the external collaborator). -/
def finalOutput (entries : List (Nat × HEntry)) : List (List (String × JValue)) :=
  (finalRecords entries).map serializeRecord

/-! ## `detect_and_correct_rotation` (`src/pdf_utils.py`)

The Tesseract call on the rotated thumbnail is the external collaborator:
its figure-tag match count is a fixed function `counts` of the angle.
Rotation of the full-resolution image is an abstract `rot` function on the
pixel data. -/

/-- A page image: abstract pixel data plus the `img.info` metadata entry
`auto_rotate_deg` (absent before rotation correction runs). -/
structure PImage (α : Type) where
  data : α
  autoRotateDeg : Option Nat

/-- The candidate angles, in iteration order. -/
def rotAngles : List Nat := [0, 90, 180, 270]

/-- The candidate loop: track `max_figs`/`best_angle`, break out as soon as
the current count is at least 2 (`if fig_count >= 2: break`). -/
def rotLoop (counts : Nat → Nat) : List Nat → Int → Nat → Nat
  | [], _, best => best
  | a :: rest, maxF, best =>
    let c := counts a
    let maxF' := if (c : Int) > maxF then (c : Int) else maxF
    let best' := if (c : Int) > maxF then a else best
    if 2 ≤ c then best' else rotLoop counts rest maxF' best'

/-- The angle `detect_and_correct_rotation` selects (`max_figs` starts at
`-1`, `best_angle` at `0`). -/
def chooseRotationAngle (counts : Nat → Nat) : Nat :=
  rotLoop counts rotAngles (-1) 0

/-- `detect_and_correct_rotation`: apply the winning angle to the
full-resolution image only when it is nonzero, and always store it in the
metadata. -/
def detectAndCorrectRotation {α : Type} (rot : α → Nat → α) (counts : Nat → Nat)
    (img : PImage α) : PImage α :=
  let best := chooseRotationAngle counts
  { data := if best ≠ 0 then rot img.data best else img.data,
    autoRotateDeg := some best }

/-- Modelled from the spec: the plain stable argmax over all four angles
without the early exit ("track the angle with the highest count seen so
far; on exact ties the first-seen angle wins"), which claim C3 compares the
implemented loop against.  This exhaustive loop exists nowhere in the code;
it follows the spec's words. -/
def argmaxLoop (counts : Nat → Nat) : List Nat → Int → Nat → Nat
  | [], _, best => best
  | a :: rest, maxF, best =>
    if (counts a : Int) > maxF then argmaxLoop counts rest (counts a) a
    else argmaxLoop counts rest maxF best

/-- The stable argmax over the fixed angle order, per the spec's words. -/
def stableArgmax (counts : Nat → Nat) : Nat :=
  argmaxLoop counts rotAngles (-1) 0

/-! ## `get_unified_content_bbox` (`src/pdf_utils.py`)

The PIL resize/grayscale/invert/getbbox chain is the external collaborator:
each page's proxy content box (on the 800-pixel-wide detection copy) is a
given `Option` of four integer coordinates.  `ratio = img.width / detect_w`
is embedded as exact rational division (the float rounding of Python's `/`
is not modelled). -/

structure PageProxy where
  /-- `img.width` at full resolution. -/
  width : Nat
  /-- `inverted.getbbox()` on the 800-pixel-wide proxy: `(left, top, right,
  bottom)`, or `none` when the proxy has no nonzero pixel. -/
  bbox : Option (Nat × Nat × Nat × Nat)

/-- `ratio = img.width / detect_w` with `detect_w = 800`. -/
def pageRatio (p : PageProxy) : ℚ := (p.width : ℚ) / 800

/-- A page's proxy box scaled back to full resolution. -/
def scaledBox (p : PageProxy) : Option (ℚ × ℚ × ℚ × ℚ) :=
  p.bbox.map (fun q =>
    (q.1 * pageRatio p, q.2.1 * pageRatio p, q.2.2.1 * pageRatio p, q.2.2.2 * pageRatio p))

/-- Accumulator of the unify loop.  `gLeft`/`gTop` start at `float('inf')`,
embedded as `none` (the first `min` always adopts the new value);
`gRight`/`gBottom` start at `0`. -/
structure UnifyState where
  foundAny : Bool
  gLeft : Option ℚ
  gTop : Option ℚ
  gRight : ℚ
  gBottom : ℚ

/-- `min` against a possibly still-infinite accumulator entry. -/
def minOpt (o : Option ℚ) (x : ℚ) : Option ℚ :=
  match o with
  | none => some x
  | some y => some (min y x)

/-- One iteration of the unify loop. -/
def unifyStep (st : UnifyState) (p : PageProxy) : UnifyState :=
  match scaledBox p with
  | none => st
  | some (l, t, r, b) =>
    { foundAny := true, gLeft := minOpt st.gLeft l, gTop := minOpt st.gTop t,
      gRight := max st.gRight r, gBottom := max st.gBottom b }

/-- `get_unified_content_bbox`: the running union over all pages that
yielded a box, or `none` when no page did. -/
def getUnifiedContentBbox (images : List PageProxy) : Option (ℚ × ℚ × ℚ × ℚ) :=
  let st := images.foldl unifyStep ⟨false, none, none, 0, 0⟩
  if st.foundAny then some (st.gLeft.getD 0, st.gTop.getD 0, st.gRight, st.gBottom)
  else none

/-! ## `get_ocr_hints` (`src/pdf_utils.py`)

Tesseract's per-token output is the external collaborator: a list of
tokens, each with text, confidence and a pixel box.  Coordinate
normalization `int(coord * 1000 / dim)` is floor division on naturals (the
float rounding of Python's `/` is not modelled). -/

structure OcrToken where
  text : String
  conf : Int
  left : Nat
  top : Nat
  width : Nat
  height : Nat

structure OcrHint where
  type : String
  text : String
  box2d : List Nat

/-- `[ymin, xmin, ymax, xmax]` normalized to 0–1000. -/
def normBox (wImg hImg : Nat) (t : OcrToken) : List Nat :=
  [t.top * 1000 / hImg, t.left * 1000 / wImg,
   (t.top + t.height) * 1000 / hImg, (t.left + t.width) * 1000 / wImg]

/-- The token loop of `get_ocr_hints`, with its sequential `continue`s and
the `if`/`elif` classification. -/
def getOcrHints (wImg hImg : Nat) : List OcrToken → List OcrHint
  | [] => []
  | tk :: rest =>
    if tk.conf < 20 || pyStrip tk.text = "" then getOcrHints wImg hImg rest
    else if (isDigitStr (pyStrip tk.text) && 6 < (pyStrip tk.text).length)
        || pyStrip tk.text = "0" then getOcrHints wImg hImg rest
    else if figPrefixMatch (pyStrip tk.text) then
      ⟨"figure_label", pyStrip tk.text, normBox wImg hImg tk⟩ :: getOcrHints wImg hImg rest
    else if compHintMatch (pyStrip tk.text) || (pyStrip tk.text).length = 1 then
      ⟨"component", pyStrip tk.text, normBox wImg hImg tk⟩ :: getOcrHints wImg hImg rest
    else getOcrHints wImg hImg rest

/-- Per-token outcome as the spec describes it: the four drop rules, then
the figure-label / component classification, `none` for everything else. -/
def hintOfToken (wImg hImg : Nat) (tk : OcrToken) : Option OcrHint :=
  if tk.conf < 20 then none
  else if pyStrip tk.text = "" then none
  else if isDigitStr (pyStrip tk.text) && 6 < (pyStrip tk.text).length then none
  else if pyStrip tk.text = "0" then none
  else if figPrefixMatch (pyStrip tk.text) then
    some ⟨"figure_label", pyStrip tk.text, normBox wImg hImg tk⟩
  else if compHintMatch (pyStrip tk.text) || (pyStrip tk.text).length = 1 then
    some ⟨"component", pyStrip tk.text, normBox wImg hImg tk⟩
  else none

/-! ## Theorems: rotation detection (claims C2, C3) -/

theorem rotLoop_cons (counts : Nat → Nat) (a : Nat) (rest : List Nat) (maxF : Int)
    (best : Nat) :
    rotLoop counts (a :: rest) maxF best =
      (if 2 ≤ counts a then (if maxF < (counts a : Int) then a else best)
       else rotLoop counts rest (if maxF < (counts a : Int) then (counts a : Int) else maxF)
              (if maxF < (counts a : Int) then a else best)) := by
  simp only [rotLoop, gt_iff_lt]

theorem argmaxLoop_cons (counts : Nat → Nat) (a : Nat) (rest : List Nat) (maxF : Int)
    (best : Nat) :
    argmaxLoop counts (a :: rest) maxF best =
      (if maxF < (counts a : Int) then argmaxLoop counts rest (counts a) a
       else argmaxLoop counts rest maxF best) := by
  simp only [argmaxLoop, gt_iff_lt]

/-- As long as `max_figs` is still below 2, the early-exit loop returns the
first element whose count reaches 2, and degenerates to the exhaustive
argmax loop when no element does. -/
theorem rotLoop_eq_of_lt_two (counts : Nat → Nat) :
    ∀ (l : List Nat) (maxF : Int) (best : Nat), maxF < 2 →
      rotLoop counts l maxF best =
        (match l.find? (fun a => decide (2 ≤ counts a)) with
         | some a => a
         | none => argmaxLoop counts l maxF best) := by
  intro l
  induction l with
  | nil => intro maxF best _; rfl
  | cons a rest ih =>
    intro maxF best h
    by_cases h2 : 2 ≤ counts a
    · have hgt : maxF < (counts a : Int) := by omega
      rw [List.find?_cons_of_pos _ (by simpa using h2), rotLoop_cons]
      rw [if_pos h2, if_pos hgt]
    · rw [List.find?_cons_of_neg _ (by simpa using h2), rotLoop_cons, argmaxLoop_cons]
      rw [if_neg h2]
      by_cases hgt : maxF < (counts a : Int)
      · rw [if_pos hgt, if_pos hgt, if_pos hgt, ih _ _ (by omega)]
      · rw [if_neg hgt, if_neg hgt, if_neg hgt, ih _ _ h]

/-- The angle the implemented loop selects: the first angle whose count
reaches 2, else the stable argmax. -/
theorem chooseRotationAngle_char (counts : Nat → Nat) :
    chooseRotationAngle counts =
      (if 2 ≤ counts 0 then 0
       else if 2 ≤ counts 90 then 90
       else if 2 ≤ counts 180 then 180
       else if 2 ≤ counts 270 then 270
       else stableArgmax counts) := by
  rw [chooseRotationAngle, rotLoop_eq_of_lt_two counts rotAngles (-1) 0 (by norm_num)]
  rw [rotAngles]
  by_cases h0 : 2 ≤ counts 0
  · rw [List.find?_cons_of_pos _ (by simpa using h0), if_pos h0]
  · rw [List.find?_cons_of_neg _ (by simpa using h0), if_neg h0]
    by_cases h1 : 2 ≤ counts 90
    · rw [List.find?_cons_of_pos _ (by simpa using h1), if_pos h1]
    · rw [List.find?_cons_of_neg _ (by simpa using h1), if_neg h1]
      by_cases h2 : 2 ≤ counts 180
      · rw [List.find?_cons_of_pos _ (by simpa using h2), if_pos h2]
      · rw [List.find?_cons_of_neg _ (by simpa using h2), if_neg h2]
        by_cases h3 : 2 ≤ counts 270
        · rw [List.find?_cons_of_pos _ (by simpa using h3), if_pos h3]
        · rw [List.find?_cons_of_neg _ (by simpa using h3), if_neg h3]
          rfl

/-- The exhaustive loop's running maximum never decreases. -/
theorem argmaxLoop_ge (counts : Nat → Nat) :
    ∀ (l : List Nat) (maxF : Int) (best : Nat), maxF ≤ (counts best : Int) →
      maxF ≤ (counts (argmaxLoop counts l maxF best) : Int) := by
  intro l
  induction l with
  | nil => intro maxF best h; exact h
  | cons a rest ih =>
    intro maxF best h
    rw [argmaxLoop_cons]
    by_cases hgt : maxF < (counts a : Int)
    · rw [if_pos hgt]
      have := ih (counts a) a (le_refl _)
      omega
    · rw [if_neg hgt]
      exact ih maxF best h

/-- Every element of the list scores at most the exhaustive loop's result. -/
theorem argmaxLoop_mem_le (counts : Nat → Nat) :
    ∀ (l : List Nat) (maxF : Int) (best : Nat), maxF ≤ (counts best : Int) →
      ∀ a ∈ l, counts a ≤ counts (argmaxLoop counts l maxF best) := by
  intro l
  induction l with
  | nil => intro _ _ _ a ha; cases ha
  | cons b rest ih =>
    intro maxF best h a ha
    rw [argmaxLoop_cons]
    rcases List.mem_cons.mp ha with rfl | ha'
    · by_cases hgt : maxF < (counts a : Int)
      · rw [if_pos hgt]
        have := argmaxLoop_ge counts rest (counts a) a (le_refl _)
        omega
      · rw [if_neg hgt]
        have := argmaxLoop_ge counts rest maxF best h
        omega
    · by_cases hgt : maxF < (counts b : Int)
      · rw [if_pos hgt]
        exact ih (counts b) b (le_refl _) a ha'
      · rw [if_neg hgt]
        exact ih maxF best h a ha'

/-- The stable argmax dominates every candidate angle. -/
theorem stableArgmax_maximal (counts : Nat → Nat) :
    ∀ a ∈ rotAngles, counts a ≤ counts (stableArgmax counts) := by
  intro a ha
  exact argmaxLoop_mem_le counts rotAngles (-1) 0 (by omega) a ha

/-- When angle 0 already scores maximally, the stable argmax is 0 (the
first-seen angle wins on ties). -/
theorem stableArgmax_eq_zero (counts : Nat → Nat)
    (hmax : ∀ a ∈ rotAngles, counts a ≤ counts 0) : stableArgmax counts = 0 := by
  have h90 : counts 90 ≤ counts 0 := hmax 90 (by simp [rotAngles])
  have h180 : counts 180 ≤ counts 0 := hmax 180 (by simp [rotAngles])
  have h270 : counts 270 ≤ counts 0 := hmax 270 (by simp [rotAngles])
  rw [stableArgmax, rotAngles]
  rw [argmaxLoop_cons, if_pos (by omega)]
  rw [argmaxLoop_cons, if_neg (by omega)]
  rw [argmaxLoop_cons, if_neg (by omega)]
  rw [argmaxLoop_cons, if_neg (by omega)]
  rfl

/-- When angle 90 strictly beats angle 0 and dominates angles 180 and 270,
the stable argmax is 90: it is the first angle achieving the maximal count. -/
theorem stableArgmax_eq_90 (counts : Nat → Nat) (h0 : counts 0 < counts 90)
    (h180 : counts 180 ≤ counts 90) (h270 : counts 270 ≤ counts 90) :
    stableArgmax counts = 90 := by
  rw [stableArgmax, rotAngles]
  rw [argmaxLoop_cons, if_pos (by omega)]
  rw [argmaxLoop_cons, if_pos (by omega)]
  rw [argmaxLoop_cons, if_neg (by omega)]
  rw [argmaxLoop_cons, if_neg (by omega)]
  rfl

/-- When angle 180 strictly beats angles 0 and 90 and dominates angle 270,
the stable argmax is 180: it is the first angle achieving the maximal
count. -/
theorem stableArgmax_eq_180 (counts : Nat → Nat) (h0 : counts 0 < counts 180)
    (h90 : counts 90 < counts 180) (h270 : counts 270 ≤ counts 180) :
    stableArgmax counts = 180 := by
  rw [stableArgmax, rotAngles]
  rw [argmaxLoop_cons, if_pos (by omega)]
  by_cases h : counts 0 < counts 90
  · rw [argmaxLoop_cons, if_pos (by omega)]
    rw [argmaxLoop_cons, if_pos (by omega)]
    rw [argmaxLoop_cons, if_neg (by omega)]
    rfl
  · rw [argmaxLoop_cons, if_neg (by omega)]
    rw [argmaxLoop_cons, if_pos (by omega)]
    rw [argmaxLoop_cons, if_neg (by omega)]
    rfl

/-- When angle 270 strictly beats angles 0, 90 and 180, the stable argmax
is 270: it is the (only, hence first) angle achieving the maximal count. -/
theorem stableArgmax_eq_270 (counts : Nat → Nat) (h0 : counts 0 < counts 270)
    (h90 : counts 90 < counts 270) (h180 : counts 180 < counts 270) :
    stableArgmax counts = 270 := by
  rw [stableArgmax, rotAngles]
  rw [argmaxLoop_cons, if_pos (by omega)]
  by_cases h1 : counts 0 < counts 90
  · rw [argmaxLoop_cons, if_pos (by omega)]
    by_cases h2 : counts 90 < counts 180
    · rw [argmaxLoop_cons, if_pos (by omega)]
      rw [argmaxLoop_cons, if_pos (by omega)]
      rfl
    · rw [argmaxLoop_cons, if_neg (by omega)]
      rw [argmaxLoop_cons, if_pos (by omega)]
      rfl
  · rw [argmaxLoop_cons, if_neg (by omega)]
    by_cases h2 : counts 0 < counts 180
    · rw [argmaxLoop_cons, if_pos (by omega)]
      rw [argmaxLoop_cons, if_pos (by omega)]
      rfl
    · rw [argmaxLoop_cons, if_neg (by omega)]
      rw [argmaxLoop_cons, if_pos (by omega)]
      rfl

/-- Counts refuting claim C2 as stated: angle 0 reaches the early-exit
threshold, angle 90 scores strictly higher. -/
def c2Counts : Nat → Nat := fun a => if a = 0 then 3 else if a = 90 then 4 else 0

/-- C2, counterexample: with figure-tag counts `(3, 4, 0, 0)` on angles
`[0, 90, 180, 270]`, `detect_and_correct_rotation` selects and stores angle
0 and leaves the pixels untouched, although the first-seen angle achieving
the maximal match count (the stable argmax) is 90: angle 90 scores
strictly higher than the stored angle 0, so the returned angle is not the
first-seen angle achieving the maximal match count. -/
theorem C2_rotation_counterexample :
    (detectAndCorrectRotation (fun (d a : Nat) => d + a) c2Counts
        ⟨5, none⟩).autoRotateDeg = some 0
    ∧ (detectAndCorrectRotation (fun (d a : Nat) => d + a) c2Counts ⟨5, none⟩).data = 5
    ∧ chooseRotationAngle c2Counts = 0
    ∧ stableArgmax c2Counts = 90
    ∧ c2Counts 0 < c2Counts 90 ∧ (90 : Nat) ∈ rotAngles
    ∧ ¬ (∀ a ∈ rotAngles, c2Counts a ≤ c2Counts 0) := by
  decide

/-- C2 (amended): `detect_and_correct_rotation` stores the selected angle
in the metadata (also when it is 0), rotates the full-resolution pixels
exactly when the angle is nonzero, and selects the first angle in
`[0, 90, 180, 270]` whose count reaches 2 when one exists, otherwise the
stable argmax — which is itself proven to be the first-seen angle
achieving the maximal count, by the exhaustive case characterization: it
is 0 whenever 0 is maximal (so an exact tie between 0 and 90 returns 0),
90 when 90 strictly beats 0 and dominates 180 and 270, 180 when 180
strictly beats 0 and 90 and dominates 270, and 270 when 270 strictly
beats all three others. -/
theorem C2_rotation_amended (α : Type) (rot : α → Nat → α) (counts : Nat → Nat)
    (img : PImage α) :
    (detectAndCorrectRotation rot counts img).autoRotateDeg =
        some (chooseRotationAngle counts)
    ∧ (detectAndCorrectRotation rot counts img).data =
        (if chooseRotationAngle counts ≠ 0 then rot img.data (chooseRotationAngle counts)
         else img.data)
    ∧ (chooseRotationAngle counts = 0 →
        (detectAndCorrectRotation rot counts img).data = img.data)
    ∧ chooseRotationAngle counts =
        (if 2 ≤ counts 0 then 0
         else if 2 ≤ counts 90 then 90
         else if 2 ≤ counts 180 then 180
         else if 2 ≤ counts 270 then 270
         else stableArgmax counts)
    ∧ (∀ a ∈ rotAngles, counts a ≤ counts (stableArgmax counts))
    ∧ ((∀ a ∈ rotAngles, counts a ≤ counts 0) → chooseRotationAngle counts = 0)
    ∧ ((∀ a ∈ rotAngles, counts a ≤ counts 0) → stableArgmax counts = 0)
    ∧ (counts 0 < counts 90 → counts 180 ≤ counts 90 → counts 270 ≤ counts 90 →
        stableArgmax counts = 90)
    ∧ (counts 0 < counts 180 → counts 90 < counts 180 → counts 270 ≤ counts 180 →
        stableArgmax counts = 180)
    ∧ (counts 0 < counts 270 → counts 90 < counts 270 → counts 180 < counts 270 →
        stableArgmax counts = 270) := by
  refine ⟨rfl, rfl, ?_, chooseRotationAngle_char counts, stableArgmax_maximal counts, ?_,
    stableArgmax_eq_zero counts, stableArgmax_eq_90 counts, stableArgmax_eq_180 counts,
    stableArgmax_eq_270 counts⟩
  · intro h
    simp [detectAndCorrectRotation, h]
  · intro hmax
    rw [chooseRotationAngle_char]
    by_cases h0 : 2 ≤ counts 0
    · rw [if_pos h0]
    · have h90 : counts 90 ≤ counts 0 := hmax 90 (by simp [rotAngles])
      have h180 : counts 180 ≤ counts 0 := hmax 180 (by simp [rotAngles])
      have h270 : counts 270 ≤ counts 0 := hmax 270 (by simp [rotAngles])
      rw [if_neg h0, if_neg (by omega), if_neg (by omega), if_neg (by omega)]
      exact stableArgmax_eq_zero counts hmax

/-- C2, witness: the amended theorem applied twice at concrete counts:
at constant counts 1 (a four-way tie) the loop returns and stores angle 0,
and at counts `(0, 1, 0, 0)` the stable argmax is 90. -/
theorem C2_rotation_amended_witness :
    chooseRotationAngle (fun _ => 1) = 0
    ∧ stableArgmax (fun a => if a = 90 then 1 else 0) = 90 :=
  ⟨(C2_rotation_amended Nat (fun d a => d + a) (fun _ => 1) ⟨0, none⟩).2.2.2.2.2.1
      (by decide),
   (C2_rotation_amended Nat (fun d a => d + a) (fun a => if a = 90 then 1 else 0)
      ⟨0, none⟩).2.2.2.2.2.2.2.1 (by decide) (by decide) (by decide)⟩

/-- Counts refuting claim C3 as stated: angle 0 exactly reaches the
early-exit threshold, angle 90 would have scored strictly higher. -/
def c3Counts : Nat → Nat := fun a => if a = 0 then 2 else if a = 90 then 5 else 0

/-- C3, counterexample: with figure-tag counts `(2, 5, 0, 0)`, the
early-exit loop returns 0 while the plain stable argmax over all four
angles returns 90 — the early exit changes the result although angle 90
would have won, so the claimed equivalence fails. -/
theorem C3_early_exit_counterexample :
    chooseRotationAngle c3Counts ≠ stableArgmax c3Counts
    ∧ chooseRotationAngle c3Counts = 0 ∧ stableArgmax c3Counts = 90
    ∧ 2 ≤ c3Counts 0 ∧ 2 < c3Counts 90 := by
  decide

/-- C3 (amended): the early-exit detector equals the plain stable argmax
whenever no angle's count reaches 2; in general it returns the first angle
in `[0, 90, 180, 270]` whose count reaches 2 when one exists (and the
stable argmax otherwise), so it may differ from the stable argmax when a
strictly higher-scoring angle comes later in the order. -/
theorem C3_early_exit_amended (counts : Nat → Nat) :
    ((∀ a ∈ rotAngles, counts a < 2) →
        chooseRotationAngle counts = stableArgmax counts)
    ∧ chooseRotationAngle counts =
        (if 2 ≤ counts 0 then 0
         else if 2 ≤ counts 90 then 90
         else if 2 ≤ counts 180 then 180
         else if 2 ≤ counts 270 then 270
         else stableArgmax counts) := by
  refine ⟨?_, chooseRotationAngle_char counts⟩
  intro hlt
  have h0 : counts 0 < 2 := hlt 0 (by simp [rotAngles])
  have h90 : counts 90 < 2 := hlt 90 (by simp [rotAngles])
  have h180 : counts 180 < 2 := hlt 180 (by simp [rotAngles])
  have h270 : counts 270 < 2 := hlt 270 (by simp [rotAngles])
  rw [chooseRotationAngle_char, if_neg (by omega), if_neg (by omega),
    if_neg (by omega), if_neg (by omega)]

/-- C3, witness: the amended theorem applied at counts that never reach 2:
the early-exit loop and the stable argmax agree. -/
theorem C3_early_exit_amended_witness :
    chooseRotationAngle (fun a => if a = 180 then 1 else 0) =
      stableArgmax (fun a => if a = 180 then 1 else 0) :=
  (C3_early_exit_amended (fun a => if a = 180 then 1 else 0)).1 (by decide)

/-! ## Theorems: response parsing (claim C4) -/

theorem dropWhile_head_false {p : Char → Bool} {cs : List Char}
    (h : cs.dropWhile p ≠ []) :
    ∃ c tl, cs.dropWhile p = c :: tl ∧ p c = false := by
  induction cs with
  | nil => simp at h
  | cons a tl ih =>
    by_cases hp : p a
    · rw [List.dropWhile_cons_of_pos hp] at h ⊢
      exact ih h
    · rw [List.dropWhile_cons_of_neg (by simpa using hp)]
      exact ⟨a, tl, rfl, by simpa using hp⟩

/-- The bracket substring starts at the first `[` and ends at the last `]`,
so it always begins with `[` and ends with `]`. -/
theorem extractBrackets_spec (s : String) (sub : String)
    (h : extractBrackets s = some sub) :
    sub.data.head? = some '[' ∧ sub.data.getLast? = some ']' := by
  unfold extractBrackets at h
  by_cases hA : (s.data.dropWhile (fun c => c ≠ '[')).isEmpty
  · rw [if_pos hA] at h
    cases h
  · rw [if_neg hA] at h
    by_cases hR :
        ((s.data.dropWhile (fun c => c ≠ '[')).reverse.dropWhile (fun c => c ≠ ']')).isEmpty
    · rw [if_pos hR] at h
      cases h
    · rw [if_neg hR] at h
      have hsub : sub.data =
          ((s.data.dropWhile (fun c => c ≠ '[')).reverse.dropWhile
            (fun c => c ≠ ']')).reverse := by
        have := congrArg String.data (Option.some.inj h)
        exact this.symm
      obtain ⟨r, tlR, hReq, hpr⟩ := @dropWhile_head_false
        (fun c => c ≠ ']') ((s.data.dropWhile (fun c => c ≠ '[')).reverse)
        (by simpa [List.isEmpty_iff] using hR)
      have hr : r = ']' := by simpa using hpr
      obtain ⟨a, tlA, hAeq, hpa⟩ := @dropWhile_head_false
        (fun c => c ≠ '[') s.data (by simpa [List.isEmpty_iff] using hA)
      have ha : a = '[' := by simpa using hpa
      refine ⟨?_, ?_⟩
      · have hsplit :
            s.data.dropWhile (fun c => c ≠ '[') =
              (r :: tlR).reverse ++
                ((s.data.dropWhile (fun c => c ≠ '[')).reverse.takeWhile
                  (fun c => c ≠ ']')).reverse := by
          have h1 := List.takeWhile_append_dropWhile (fun c => c ≠ ']')
            ((s.data.dropWhile (fun c => c ≠ '[')).reverse)
          have h2 := congrArg List.reverse h1
          rw [hReq] at h2
          simpa using h2.symm
        rw [hAeq] at hsplit
        rcases hcY : (r :: tlR).reverse with _ | ⟨c, Y⟩
        · simp at hcY
        · rw [hcY, List.cons_append] at hsplit
          have hc : a = c := (List.cons.injEq _ _ _ _ ▸ hsplit).1
          have hdata : sub.data = c :: Y := by rw [hsub, hReq, hcY]
          rw [hdata, ← hc, ha]
          rfl
      · rw [hsub, hReq]
        have : (r :: tlR).reverse = tlR.reverse ++ [r] := by simp
        rw [this, hr, List.getLast?_concat]

/-- The array-body parser only ever produces arrays. -/
theorem jarr_isArr : ∀ (f : Nat) (cs : List Char) (acc : List JValue) (v : JValue)
    (r : List Char), jarr f cs acc = some (v, r) → v.isArr = true := by
  intro f
  induction f with
  | zero => intro cs acc v r h; cases h
  | succ f ih =>
    intro cs acc v r h
    rw [jarr] at h
    split at h
    · split at h
      · exact ih _ _ _ _ h
      · cases h
        rfl
      · cases h
    · cases h

/-- A successful `json.loads` of a text that starts with `[` is an array. -/
theorem jloads_bracket_isArr (s : String) (v : JValue)
    (hhead : s.data.head? = some '[') (h : jloads s = some v) : v.isArr = true := by
  unfold jloads at h
  rcases hd : s.data with _ | ⟨c, tl⟩
  · rw [hd] at hhead; cases hhead
  · rw [hd] at hhead
    have hc : c = '[' := by simpa using hhead
    rw [jvalue] at h
    rw [hd, hc] at h
    rw [show skipJsonWs ('[' :: tl) = '[' :: tl from
      List.dropWhile_cons_of_neg (by simp [isJsonWs])] at h
    simp only at h
    split at h
    · rename_i v0 rest heq
      split at h
      · cases Option.some.inj h
        split at heq
        · cases Option.some.inj heq
          rfl
        · exact jarr_isArr _ _ _ _ _ heq
      · cases h
    · cases h

/-- C4, counterexample: on the input `"5"` — a valid JSON payload that is
not an array — `_parse_json_array` returns the parsed number itself, not a
list, refuting "it never returns anything other than a list". -/
theorem C4_parse_counterexample :
    parseJsonArray "5" = JValue.num "5" ∧ (parseJsonArray "5").isArr = false :=
  ⟨rfl, rfl⟩

/-- C4 (amended): `_parse_json_array` never raises (it is total): it
returns whatever JSON value the fence-stripped text parses to — a list
whenever that value is an array, but possibly a non-list JSON value such as
a number or object — and on direct-parse failure it returns the parse of
the substring between the first `[` and the last `]` (always a list when it
succeeds), else the empty list; the extracted substring always ends in `]`,
so the naive truncation repair never fires. -/
theorem C4_parse_resilience_amended (txt : String) :
    (txt = "" → parseJsonArray txt = .arr [])
    ∧ (∀ v, txt ≠ "" → jloads (fencePreprocess txt) = some v → parseJsonArray txt = v)
    ∧ (∀ sub v, txt ≠ "" → jloads (fencePreprocess txt) = none →
        extractBrackets (fencePreprocess txt) = some sub → jloads sub = some v →
        parseJsonArray txt = v ∧ v.isArr = true)
    ∧ (txt ≠ "" → jloads (fencePreprocess txt) = none →
        extractBrackets (fencePreprocess txt) = none → parseJsonArray txt = .arr [])
    ∧ (∀ sub, txt ≠ "" → jloads (fencePreprocess txt) = none →
        extractBrackets (fencePreprocess txt) = some sub → jloads sub = none →
        parseJsonArray txt = .arr [])
    ∧ (∀ sub, extractBrackets (fencePreprocess txt) = some sub →
        sub.data.getLast? = some ']')
    ∧ (jloads (fencePreprocess txt) = none → (parseJsonArray txt).isArr = true) := by
  have hstep5 : ∀ sub, txt ≠ "" → jloads (fencePreprocess txt) = none →
      extractBrackets (fencePreprocess txt) = some sub → jloads sub = none →
      parseJsonArray txt = .arr [] := by
    intro sub hne hj hex hjs
    have hend := (extractBrackets_spec _ _ hex).2
    unfold parseJsonArray
    rw [if_neg hne]
    simp only [hj, hex]
    simp only [hjs]
    rw [if_pos hend]
    simp only [hjs]
  have hstep4 : txt ≠ "" → jloads (fencePreprocess txt) = none →
      extractBrackets (fencePreprocess txt) = none → parseJsonArray txt = .arr [] := by
    intro hne hj hex
    unfold parseJsonArray
    rw [if_neg hne]
    simp only [hj, hex]
  have hstep3 : ∀ sub v, txt ≠ "" → jloads (fencePreprocess txt) = none →
      extractBrackets (fencePreprocess txt) = some sub → jloads sub = some v →
      parseJsonArray txt = v ∧ v.isArr = true := by
    intro sub v hne hj hex hjs
    refine ⟨?_, jloads_bracket_isArr _ _ (extractBrackets_spec _ _ hex).1 hjs⟩
    unfold parseJsonArray
    rw [if_neg hne]
    simp only [hj, hex, hjs]
  refine ⟨?_, ?_, hstep3, hstep4, hstep5,
    fun sub hex => (extractBrackets_spec _ _ hex).2, ?_⟩
  · intro h
    simp [parseJsonArray, h]
  · intro v hne hj
    unfold parseJsonArray
    rw [if_neg hne]
    simp only [hj]
  · intro hj
    by_cases hne : txt = ""
    · simp [parseJsonArray, hne, JValue.isArr]
    · rcases hex : extractBrackets (fencePreprocess txt) with _ | sub
      · rw [hstep4 hne hj hex]
        rfl
      · rcases hjs : jloads sub with _ | v
        · rw [hstep5 sub hne hj hex hjs]
          rfl
        · obtain ⟨he, ha⟩ := hstep3 sub v hne hj hex hjs
          rw [he]
          exact ha

/-- C4, witness: the amended theorem applied at a concrete input whose
direct parse fails: the bracket substring `[7]` is extracted and parsed,
and the result is that array. -/
theorem C4_parse_resilience_amended_witness :
    parseJsonArray "x [7] y" = JValue.arr [JValue.num "7"]
    ∧ (JValue.arr [JValue.num "7"]).isArr = true :=
  (C4_parse_resilience_amended "x [7] y").2.2.1 "[7]" (JValue.arr [JValue.num "7"])
    (by decide) (by rfl) (by rfl) (by rfl)

/-! ## Theorems: component sort order of non-matching strings (claim C6) -/

/-- C6, counterexample: the non-matching string `"!"` receives the sentinel
key `(9999, "!", 9)` and sorts strictly *before* the matching component
`"10000"`, whose leading number 10000 exceeds the sentinel — refuting "a
non-matching string ranks strictly after every matching one". -/
theorem C6_sort_key_counterexample :
    lex3lt (componentSortKey "!") (componentSortKey "10000")
    ∧ matchesComponent (pyStrip "!") = false
    ∧ matchesComponent (pyStrip "10000") = true := by
  refine ⟨Or.inl ?_, rfl, rfl⟩
  show (componentSortKey "!").1 < (componentSortKey "10000").1
  decide

/-- C6 (amended): a non-matching string gets the sentinel key
`(9999, strippedText, 9)`, so it ranks strictly after every matching string
whose leading number is below 9999 (matching strings with leading number
9999 or more can sort after it); two non-matching strings compare by the
lexical order of their stripped text. -/
theorem C6_sort_key_amended :
    (∀ s t : String, matchesComponent (pyStrip s) = false →
      matchesComponent (pyStrip t) = true →
      leadingNumber (componentMain (pyStrip t)) < 9999 →
      lex3lt (componentSortKey t) (componentSortKey s))
    ∧ (∀ s s' : String, matchesComponent (pyStrip s) = false →
      matchesComponent (pyStrip s') = false →
      (lex3lt (componentSortKey s) (componentSortKey s') ↔ pyStrip s < pyStrip s')) := by
  constructor
  · intro s t hs ht hlt
    unfold componentSortKey
    rw [if_pos ht, if_neg (by simp [hs])]
    exact Or.inl hlt
  · intro s s' hs hs'
    unfold componentSortKey
    rw [if_neg (by simp [hs]), if_neg (by simp [hs'])]
    unfold lex3lt
    constructor
    · rintro (h | ⟨-, h | ⟨h2, h3⟩⟩)
      · exact absurd h (by simp)
      · exact h
      · exact absurd h3 (by simp)
    · intro h
      exact Or.inr ⟨rfl, Or.inl h⟩

/-- C6, witness: the amended theorem at concrete inputs: the matching
`"140"` sorts strictly before the non-matching `"!!"`, and two
non-matching strings compare lexically. -/
theorem C6_sort_key_amended_witness :
    lex3lt (componentSortKey "140") (componentSortKey "!!")
    ∧ (lex3lt (componentSortKey "!a") (componentSortKey "!b") ↔
        pyStrip "!a" < pyStrip "!b") :=
  ⟨C6_sort_key_amended.1 "!!" "140" (by decide) (by decide) (by decide),
   C6_sort_key_amended.2 "!a" "!b" (by decide) (by decide)⟩

/-! ## Theorems: entries with non-string figure values (claim C10) -/

/-- Entries whose normalized figure id is empty leave the merge state
unchanged. -/
theorem mergeStep_skip (pno : Nat) (m : List ((Nat × String) × MRecord)) (e : HEntry)
    (h : normalizeFigure e.figure = "") : mergeStep pno m e = m := by
  simp [mergeStep, h]

/-- A non-string figure value normalizes to the empty string. -/
theorem normalizeFigure_nonstr (v : JValue) (h : v.isStr = false) :
    normalizeFigure v = "" := by
  cases v <;> simp_all [normalizeFigure, JValue.isStr]

/-- C10: an entry whose `"figure"` value is not a string is dropped
entirely by the merge loop — it creates no figure record and contributes no
components and no hierarchy relations, wherever it occurs in the entry
sequence. -/
theorem C10_nonstring_figure_dropped (es1 es2 : List (Nat × HEntry)) (p : Nat)
    (e : HEntry) (h : e.figure.isStr = false) :
    mergeEntries (es1 ++ (p, e) :: es2) = mergeEntries (es1 ++ es2)
    ∧ finalRecords (es1 ++ (p, e) :: es2) = finalRecords (es1 ++ es2)
    ∧ finalOutput (es1 ++ (p, e) :: es2) = finalOutput (es1 ++ es2) := by
  have hme : mergeEntries (es1 ++ (p, e) :: es2) = mergeEntries (es1 ++ es2) := by
    unfold mergeEntries
    rw [List.foldl_append, List.foldl_append, List.foldl_cons]
    rw [mergeStep_skip p _ e (normalizeFigure_nonstr e.figure h)]
  refine ⟨hme, ?_, ?_⟩
  · unfold finalRecords
    rw [hme]
  · unfold finalOutput finalRecords
    rw [hme]

/-- C10, witness: a concrete entry with a numeric figure value inserted
between two pages changes nothing in the merge result. -/
theorem C10_nonstring_figure_dropped_witness :
    mergeEntries [(2, ⟨JValue.num "3", [JValue.str "10"], some [JValue.str "h"]⟩),
        (1, ⟨JValue.str "FIG. 1", [JValue.str "10"], none⟩)] =
      mergeEntries [(1, ⟨JValue.str "FIG. 1", [JValue.str "10"], none⟩)] :=
  (C10_nonstring_figure_dropped []
    [(1, ⟨JValue.str "FIG. 1", [JValue.str "10"], none⟩)] 2
    ⟨JValue.num "3", [JValue.str "10"], some [JValue.str "h"]⟩ rfl).1

/-! ## Theorems: OCR hint filtering and classification (claim C8) -/


theorem figPrefix_false_of_comp_or_single (s : String)
    (h : compHintMatch s = true ∨ s.length = 1) : figPrefixMatch s = false := by
  rcases h with h | h
  · unfold compHintMatch at h
    rcases hd : s.data with _ | ⟨a, tl⟩
    · rw [hd] at h
      simp at h
    · rw [hd] at h
      have ha : a.isDigit = true := by
        by_contra hna
        rw [List.takeWhile_cons_of_neg (by simpa using hna)] at h
        simp at h
      have hle : a.toNat ≤ 57 := by
        simp [Char.isDigit] at ha
        exact ha.2
      have hlow : a.toLower = a := by
        unfold Char.toLower
        rw [if_neg (by omega)]
      have hne : a ≠ 'f' := by
        intro e
        rw [e] at hle
        exact absurd hle (by decide)
      unfold figPrefixMatch
      rw [hd]
      cases tl with
      | nil => rfl
      | cons i tl2 =>
        cases tl2 with
        | nil => rfl
        | cons g tl3 =>
          simp only [hlow]
          simp [hne]
  · unfold figPrefixMatch
    rcases hd : s.data with _ | ⟨a, tl⟩
    · rfl
    · have hlen : s.data.length = 1 := by
        rw [← h]
        rfl
      rw [hd] at hlen
      simp at hlen
      rw [hlen]

theorem getOcrHints_cons (w h : Nat) (tk : OcrToken) (rest : List OcrToken) :
    getOcrHints w h (tk :: rest) =
      (match hintOfToken w h tk with
       | some hint => hint :: getOcrHints w h rest
       | none => getOcrHints w h rest) := by
  rw [getOcrHints]
  unfold hintOfToken
  by_cases h1 : tk.conf < 20
  · simp [h1]
  · by_cases h2 : pyStrip tk.text = ""
    · simp [h1, h2]
    · by_cases h3 : (isDigitStr (pyStrip tk.text) && decide (6 < (pyStrip tk.text).length)) = true
      · simp [h1, h2, h3]
      · by_cases h4 : pyStrip tk.text = "0"
        · simp [h1, h2, h3, h4]
        · by_cases h5 : figPrefixMatch (pyStrip tk.text) = true
          · simp [h1, h2, h3, h4, h5]
          · by_cases h6 : (compHintMatch (pyStrip tk.text) || decide ((pyStrip tk.text).length = 1)) = true
            · simp only [Bool.or_eq_true, decide_eq_true_eq] at h6
              simp [h1, h2, h3, h4, h5, h6]
            · simp only [Bool.or_eq_true, decide_eq_true_eq] at h6
              push_neg at h6
              simp [h1, h2, h3, h4, h5, h6]

theorem getOcrHints_eq_filterMap (w h : Nat) (ts : List OcrToken) :
    getOcrHints w h ts = ts.filterMap (hintOfToken w h) := by
  induction ts with
  | nil => rfl
  | cons tk rest ih =>
    rw [getOcrHints_cons, List.filterMap_cons]
    cases hh : hintOfToken w h tk <;> simp [hh, ih]

def tokenSurvives (tk : OcrToken) : Bool :=
  !decide (tk.conf < 20) && !decide (pyStrip tk.text = "") &&
    !(isDigitStr (pyStrip tk.text) && decide (6 < (pyStrip tk.text).length)) &&
    !decide (pyStrip tk.text = "0")

theorem tokenSurvives_iff (tk : OcrToken) : tokenSurvives tk = true ↔
    ¬tk.conf < 20 ∧ ¬pyStrip tk.text = "" ∧
      ¬(isDigitStr (pyStrip tk.text) = true ∧ 6 < (pyStrip tk.text).length) ∧
      ¬pyStrip tk.text = "0" := by
  unfold tokenSurvives
  by_cases a : tk.conf < 20 <;> by_cases b : pyStrip tk.text = "" <;>
    by_cases c : isDigitStr (pyStrip tk.text) = true <;>
      by_cases d : 6 < (pyStrip tk.text).length <;>
        by_cases e : pyStrip tk.text = "0" <;>
          simp [a, b, c, d, e]

/-- C8: hint filtering and classification — `get_ocr_hints` processes each
token independently (the loop is a `filterMap`); tokens with confidence
below 20, empty stripped text, purely numeric text longer than 6, or the
literal `"0"` are dropped; a surviving token matching the figure-tag
pattern is a `figure_label`, a surviving token matching the component
pattern or of length 1 is a `component`, everything else is dropped; on the
spec's five example tokens the output is exactly the figure label and the
two components. -/
theorem C8_hint_filtering :
    (∀ (w h : Nat) (ts : List OcrToken), getOcrHints w h ts = ts.filterMap (hintOfToken w h))
    ∧ (∀ (w h : Nat) (tk : OcrToken), tk.conf < 20 → hintOfToken w h tk = none)
    ∧ (∀ (w h : Nat) (tk : OcrToken), pyStrip tk.text = "" → hintOfToken w h tk = none)
    ∧ (∀ (w h : Nat) (tk : OcrToken), isDigitStr (pyStrip tk.text) = true →
        6 < (pyStrip tk.text).length → hintOfToken w h tk = none)
    ∧ (∀ (w h : Nat) (tk : OcrToken), pyStrip tk.text = "0" → hintOfToken w h tk = none)
    ∧ (∀ (w h : Nat) (tk : OcrToken), tokenSurvives tk = true →
        figPrefixMatch (pyStrip tk.text) = true →
        hintOfToken w h tk = some ⟨"figure_label", pyStrip tk.text, normBox w h tk⟩)
    ∧ (∀ (w h : Nat) (tk : OcrToken), tokenSurvives tk = true →
        (compHintMatch (pyStrip tk.text) = true ∨ (pyStrip tk.text).length = 1) →
        hintOfToken w h tk = some ⟨"component", pyStrip tk.text, normBox w h tk⟩)
    ∧ (∀ (w h : Nat) (tk : OcrToken), figPrefixMatch (pyStrip tk.text) = false →
        compHintMatch (pyStrip tk.text) = false → (pyStrip tk.text).length ≠ 1 →
        hintOfToken w h tk = none)
    ∧ getOcrHints 100 100
        [⟨"0000000", 90, 0, 0, 1, 1⟩, ⟨"0", 90, 0, 0, 1, 1⟩, ⟨"FIG. 3", 90, 0, 0, 1, 1⟩,
         ⟨"140'", 90, 0, 0, 1, 1⟩, ⟨"G", 90, 0, 0, 1, 1⟩] =
        [⟨"figure_label", "FIG. 3", [0, 0, 10, 10]⟩,
         ⟨"component", "140'", [0, 0, 10, 10]⟩,
         ⟨"component", "G", [0, 0, 10, 10]⟩] := by
  refine ⟨getOcrHints_eq_filterMap, ?_, ?_, ?_, ?_, ?_, ?_, ?_, rfl⟩
  · intro w h tk h1
    simp [hintOfToken, h1]
  · intro w h tk h2
    simp [hintOfToken, h2]
  · intro w h tk hdig hlen
    by_cases g1 : tk.conf < 20
    · simp [hintOfToken, g1]
    · by_cases g2 : pyStrip tk.text = ""
      · simp [hintOfToken, g2]
      · simp [hintOfToken, g1, g2, hdig, hlen]
  · intro w h tk h4
    by_cases g1 : tk.conf < 20
    · simp [hintOfToken, g1]
    · by_cases g3 : (isDigitStr (pyStrip tk.text) && decide (6 < (pyStrip tk.text).length)) = true
      · simp [hintOfToken, g1, g3, h4]
      · simp [hintOfToken, g1, g3, h4]
  · intro w h tk hs hfig
    obtain ⟨hs1, hs2, hs3, hs4⟩ := (tokenSurvives_iff tk).mp hs
    unfold hintOfToken
    rw [if_neg hs1, if_neg hs2, if_neg (by simpa using hs3), if_neg hs4, if_pos hfig]
  · intro w h tk hs hcomp
    have hfigf := figPrefix_false_of_comp_or_single (pyStrip tk.text) hcomp
    obtain ⟨hs1, hs2, hs3, hs4⟩ := (tokenSurvives_iff tk).mp hs
    unfold hintOfToken
    rw [if_neg hs1, if_neg hs2, if_neg (by simpa using hs3), if_neg hs4,
      if_neg (by simp [hfigf]), if_pos (by simpa using hcomp)]
  · intro w h tk hfigf hcompf hlen1
    unfold hintOfToken
    split_ifs with g1 g2 g3 g4 g5 g6 <;> try rfl
    · rw [hfigf] at g5
      cases g5
    · rcases (by simpa using g6 : compHintMatch (pyStrip tk.text) = true ∨
          (pyStrip tk.text).length = 1) with g | g
      · rw [hcompf] at g
        cases g
      · exact absurd g hlen1

/-- C8, witness: the main theorem applied at concrete tokens: `"FIG. 3"`
classifies as a figure label, the literal `"0"` is dropped. -/
theorem C8_hint_filtering_witness :
    hintOfToken 100 100 ⟨"FIG. 3", 90, 0, 0, 1, 1⟩ =
      some ⟨"figure_label", "FIG. 3", [0, 0, 10, 10]⟩
    ∧ hintOfToken 100 100 ⟨"0", 90, 0, 0, 1, 1⟩ = none :=
  ⟨(C8_hint_filtering.2.2.2.2.2.1 100 100 ⟨"FIG. 3", 90, 0, 0, 1, 1⟩
      (by decide) (by decide)).trans rfl,
   C8_hint_filtering.2.2.2.2.1 100 100 ⟨"0", 90, 0, 0, 1, 1⟩ (by decide)⟩

/-! ## Theorems: unified content bounds (claim C9) -/


theorem foldl_unifyStep_eq (images : List PageProxy) : ∀ st : UnifyState,
    images.foldl unifyStep st =
      (images.filterMap scaledBox).foldl
        (fun st q => ⟨true, minOpt st.gLeft q.1, minOpt st.gTop q.2.1,
          max st.gRight q.2.2.1, max st.gBottom q.2.2.2⟩) st := by
  induction images with
  | nil => intro st; rfl
  | cons p rest ih =>
    intro st
    rw [List.foldl_cons, List.filterMap_cons]
    rcases hq : scaledBox p with _ | q
    · rw [show unifyStep st p = st by unfold unifyStep; rw [hq]]
      exact ih st
    · rw [show unifyStep st p =
          (⟨true, minOpt st.gLeft q.1, minOpt st.gTop q.2.1,
            max st.gRight q.2.2.1, max st.gBottom q.2.2.2⟩ : UnifyState) by
        unfold unifyStep; rw [hq]]
      rw [List.foldl_cons]
      exact ih _

theorem boxFold_foundAny (bs : List (ℚ × ℚ × ℚ × ℚ)) : ∀ st : UnifyState,
    (bs.foldl
      (fun st q => ⟨true, minOpt st.gLeft q.1, minOpt st.gTop q.2.1,
        max st.gRight q.2.2.1, max st.gBottom q.2.2.2⟩) st).foundAny =
      (st.foundAny || !bs.isEmpty) := by
  induction bs with
  | nil => intro st; simp
  | cons q rest ih =>
    intro st
    rw [List.foldl_cons, ih]
    simp

theorem boxFold_gLeft (bs : List (ℚ × ℚ × ℚ × ℚ)) : ∀ st : UnifyState,
    (bs.foldl
      (fun st q => ⟨true, minOpt st.gLeft q.1, minOpt st.gTop q.2.1,
        max st.gRight q.2.2.1, max st.gBottom q.2.2.2⟩) st).gLeft =
      (bs.map (fun q => q.1)).foldl minOpt st.gLeft := by
  induction bs with
  | nil => intro st; rfl
  | cons q rest ih =>
    intro st
    rw [List.foldl_cons, ih, List.map_cons, List.foldl_cons]

theorem boxFold_gTop (bs : List (ℚ × ℚ × ℚ × ℚ)) : ∀ st : UnifyState,
    (bs.foldl
      (fun st q => ⟨true, minOpt st.gLeft q.1, minOpt st.gTop q.2.1,
        max st.gRight q.2.2.1, max st.gBottom q.2.2.2⟩) st).gTop =
      (bs.map (fun q => q.2.1)).foldl minOpt st.gTop := by
  induction bs with
  | nil => intro st; rfl
  | cons q rest ih =>
    intro st
    rw [List.foldl_cons, ih, List.map_cons, List.foldl_cons]

theorem boxFold_gRight (bs : List (ℚ × ℚ × ℚ × ℚ)) : ∀ st : UnifyState,
    (bs.foldl
      (fun st q => ⟨true, minOpt st.gLeft q.1, minOpt st.gTop q.2.1,
        max st.gRight q.2.2.1, max st.gBottom q.2.2.2⟩) st).gRight =
      (bs.map (fun q => q.2.2.1)).foldl max st.gRight := by
  induction bs with
  | nil => intro st; rfl
  | cons q rest ih =>
    intro st
    rw [List.foldl_cons, ih, List.map_cons, List.foldl_cons]

theorem boxFold_gBottom (bs : List (ℚ × ℚ × ℚ × ℚ)) : ∀ st : UnifyState,
    (bs.foldl
      (fun st q => ⟨true, minOpt st.gLeft q.1, minOpt st.gTop q.2.1,
        max st.gRight q.2.2.1, max st.gBottom q.2.2.2⟩) st).gBottom =
      (bs.map (fun q => q.2.2.2)).foldl max st.gBottom := by
  induction bs with
  | nil => intro st; rfl
  | cons q rest ih =>
    intro st
    rw [List.foldl_cons, ih, List.map_cons, List.foldl_cons]

theorem foldl_minOpt_none (l : List ℚ) :
    l.foldl minOpt none = l.min? := by
  have haux : ∀ (a : ℚ) (l : List ℚ),
      l.foldl minOpt (some a) = some (l.foldl min a) := by
    intro a l
    induction l generalizing a with
    | nil => rfl
    | cons x xs ih => rw [List.foldl_cons, List.foldl_cons]; exact ih (min a x)
  cases l with
  | nil => rfl
  | cons a xs =>
    rw [List.foldl_cons, List.min?_cons']
    exact haux a xs

theorem foldl_max_zero (l : List ℚ) (h0 : ∀ x ∈ l, 0 ≤ x) (hne : l ≠ []) :
    some (l.foldl max 0) = l.max? := by
  cases l with
  | nil => exact absurd rfl hne
  | cons a xs =>
    rw [List.foldl_cons, List.max?_cons']
    have : max 0 a = a := max_eq_right (h0 a (by simp))
    rw [this]

theorem scaledBox_nonneg (p : PageProxy) (q : ℚ × ℚ × ℚ × ℚ)
    (h : scaledBox p = some q) :
    0 ≤ q.1 ∧ 0 ≤ q.2.1 ∧ 0 ≤ q.2.2.1 ∧ 0 ≤ q.2.2.2 := by
  have hr : (0 : ℚ) ≤ pageRatio p := by
    unfold pageRatio
    positivity
  rcases hb : p.bbox with _ | ⟨⟨a, b, c, d⟩⟩
  · unfold scaledBox at h
    rw [hb] at h
    cases h
  · unfold scaledBox at h
    rw [hb] at h
    obtain rfl := (Option.some.inj h).symm
    refine ⟨?_, ?_, ?_, ?_⟩ <;> exact mul_nonneg (by positivity) hr


theorem unify_example :
    getUnifiedContentBbox [⟨1600, none⟩, ⟨1600, some (10, 10, 90, 90)⟩, ⟨1600, none⟩]
      = some (20, 20, 180, 180) := by
  have hsb1 : scaledBox ⟨1600, none⟩ = none := rfl
  have hsb2 : scaledBox ⟨1600, some (10, 10, 90, 90)⟩ = some (20, 20, 180, 180) := by
    unfold scaledBox pageRatio
    norm_num
  unfold getUnifiedContentBbox
  rw [foldl_unifyStep_eq]
  rw [show (([⟨1600, none⟩, ⟨1600, some (10, 10, 90, 90)⟩, ⟨1600, none⟩] :
      List PageProxy).filterMap scaledBox) = [(20, 20, 180, 180)] by
    simp [List.filterMap_cons, hsb1, hsb2]]
  simp [minOpt]

/-- C9: `get_unified_content_bbox` returns absent exactly when no page
yielded a proxy content box; otherwise it returns the componentwise union
(minimum of lefts and tops, maximum of rights and bottoms) of the per-page
boxes scaled back to full resolution by each page's own ratio
`width / 800`; a single contributing page with proxy box `(10,10,90,90)`
at ratio 2.0 yields `(20,20,180,180)`, and an empty page set yields
absent. -/
theorem C9_unified_bbox (images : List PageProxy) :
    (getUnifiedContentBbox images = none ↔ images.filterMap scaledBox = [])
    ∧ (∀ l t r b, getUnifiedContentBbox images = some (l, t, r, b) →
        ((images.filterMap scaledBox).map (fun q => q.1)).min? = some l
        ∧ ((images.filterMap scaledBox).map (fun q => q.2.1)).min? = some t
        ∧ ((images.filterMap scaledBox).map (fun q => q.2.2.1)).max? = some r
        ∧ ((images.filterMap scaledBox).map (fun q => q.2.2.2)).max? = some b)
    ∧ (∀ p : PageProxy, scaledBox p = p.bbox.map (fun q =>
        (q.1 * ((p.width : ℚ) / 800), q.2.1 * ((p.width : ℚ) / 800),
         q.2.2.1 * ((p.width : ℚ) / 800), q.2.2.2 * ((p.width : ℚ) / 800))))
    ∧ getUnifiedContentBbox [⟨1600, none⟩, ⟨1600, some (10, 10, 90, 90)⟩, ⟨1600, none⟩]
        = some (20, 20, 180, 180)
    ∧ getUnifiedContentBbox [] = none := by
  have hfound := boxFold_foundAny (images.filterMap scaledBox) ⟨false, none, none, 0, 0⟩
  refine ⟨?_, ?_, fun p => rfl, unify_example, rfl⟩
  · unfold getUnifiedContentBbox
    rw [foldl_unifyStep_eq]
    by_cases hbs : images.filterMap scaledBox = []
    · rw [hbs]
      simp
    · rw [if_pos (by rw [hfound]; simp [hbs])]
      simp [hbs]
  · intro l t r b h
    unfold getUnifiedContentBbox at h
    rw [foldl_unifyStep_eq] at h
    by_cases hbs : images.filterMap scaledBox = []
    · rw [hbs] at h
      simp at h
    · rw [if_pos (by rw [hfound]; simp [hbs])] at h
      have hinj := Option.some.inj h
      rw [Prod.ext_iff] at hinj
      obtain ⟨h1, hrest⟩ := hinj
      rw [Prod.ext_iff] at hrest
      obtain ⟨h2, hrest2⟩ := hrest
      rw [Prod.ext_iff] at hrest2
      obtain ⟨h3, h4⟩ := hrest2
      dsimp only at h1 h2 h3 h4
      refine ⟨?_, ?_, ?_, ?_⟩
      · rw [boxFold_gLeft, foldl_minOpt_none] at h1
        rcases hmin : ((images.filterMap scaledBox).map (fun q => q.1)).min? with _ | m
        · exact absurd (List.map_eq_nil_iff.mp (List.min?_eq_none_iff.mp hmin)) hbs
        · rw [hmin] at h1
          rw [hmin, show m = l from h1]
      · rw [boxFold_gTop, foldl_minOpt_none] at h2
        rcases hmin : ((images.filterMap scaledBox).map (fun q => q.2.1)).min? with _ | m
        · exact absurd (List.map_eq_nil_iff.mp (List.min?_eq_none_iff.mp hmin)) hbs
        · rw [hmin] at h2
          rw [hmin, show m = t from h2]
      · rw [boxFold_gRight] at h3
        rw [← h3]
        exact (foldl_max_zero ((images.filterMap scaledBox).map (fun q => q.2.2.1))
          (by
            intro x hx
            simp only [List.mem_map] at hx
            obtain ⟨q, hq, rfl⟩ := hx
            obtain ⟨p, -, hp⟩ := List.mem_filterMap.mp hq
            exact (scaledBox_nonneg p q hp).2.2.1)
          (by simpa using hbs)).symm
      · rw [boxFold_gBottom] at h4
        rw [← h4]
        exact (foldl_max_zero ((images.filterMap scaledBox).map (fun q => q.2.2.2))
          (by
            intro x hx
            simp only [List.mem_map] at hx
            obtain ⟨q, hq, rfl⟩ := hx
            obtain ⟨p, -, hp⟩ := List.mem_filterMap.mp hq
            exact (scaledBox_nonneg p q hp).2.2.2)
          (by simpa using hbs)).symm

/-- C9, witness: the main theorem applied at the three-page example — the
minimum of the scaled lefts there is 20. -/
theorem C9_unified_bbox_witness :
    ((([⟨1600, none⟩, ⟨1600, some (10, 10, 90, 90)⟩, ⟨1600, none⟩] :
        List PageProxy).filterMap scaledBox).map (fun q => q.1)).min? = some 20 :=
  ((C9_unified_bbox [⟨1600, none⟩, ⟨1600, some (10, 10, 90, 90)⟩, ⟨1600, none⟩]).2.1
    20 20 180 180
    (C9_unified_bbox [⟨1600, none⟩, ⟨1600, some (10, 10, 90, 90)⟩, ⟨1600, none⟩]).2.2.2.1).1

/-! ## Theorems: component cleaning (claim C5) -/

theorem isAlpha_not_isDigit (c : Char) (h : c.isAlpha = true) : c.isDigit = false := by
  by_contra hc
  rw [Bool.not_eq_false] at hc
  simp [Char.isAlpha, Char.isUpper, Char.isLower] at h
  simp [Char.isDigit] at hc
  rcases h with ⟨h1, -⟩ | ⟨h1, -⟩ <;>
    exact absurd (UInt32.le_trans h1 hc.2) (by decide)

theorem matchesComponent_ne_empty (s : String) (h : matchesComponent s = true) :
    1 ≤ s.length := by
  unfold matchesComponent componentMain at h
  rcases hd : s.data with _ | ⟨a, tl⟩
  · rw [hd] at h
    simp at h
  · show 1 ≤ s.data.length
    rw [hd]
    simp

theorem isDigitStr_false_of_alpha (s : String) (c : Char) (hc : c ∈ s.data)
    (h : c.isAlpha = true) : isDigitStr s = false := by
  rw [isDigitStr, Bool.and_eq_false_iff]
  right
  have hnot : ¬ (s.data.all Char.isDigit = true) := by
    rw [List.all_eq_true]
    intro hall
    have hd := hall c hc
    rw [isAlpha_not_isDigit c h] at hd
    cases hd
  simpa using hnot

theorem cleanComponentsStr_eq_empty (comps : List String)
    (hk : ((comps.map pyStrip).filter matchesComponent).isEmpty = true) :
    cleanComponentsStr comps = [] := by
  simp only [cleanComponentsStr, hk]
  rfl

theorem cleanComponentsStr_eq_multi (comps : List String)
    (hk : ((comps.map pyStrip).filter matchesComponent).isEmpty = false)
    (hm : (((comps.map pyStrip).filter matchesComponent).filter isDigitStr).any
        (fun c => decide (2 ≤ c.length)) = true) :
    cleanComponentsStr comps =
      sortComponents
        ((((comps.map pyStrip).filter matchesComponent).filter
          (fun c => !(isDigitStr c && decide (c.length < 2)))).dedup) := by
  simp only [cleanComponentsStr, hk, hm]
  rfl

theorem cleanComponentsStr_eq_nomulti (comps : List String)
    (hk : ((comps.map pyStrip).filter matchesComponent).isEmpty = false)
    (hm : (((comps.map pyStrip).filter matchesComponent).filter isDigitStr).any
        (fun c => decide (2 ≤ c.length)) = false) :
    cleanComponentsStr comps =
      sortComponents (((comps.map pyStrip).filter matchesComponent).dedup) := by
  simp only [cleanComponentsStr, hk, hm]
  rfl

theorem mem_sortComponents (l : List String) (s : String) :
    s ∈ sortComponents l ↔ s ∈ l :=
  (List.perm_insertionSort compLE l).mem_iff

theorem hasMulti_iff (comps : List String) :
    (((comps.map pyStrip).filter matchesComponent).filter isDigitStr).any
        (fun c => decide (2 ≤ c.length)) = true ↔
      ∃ c ∈ (comps.map pyStrip).filter matchesComponent,
        isDigitStr c = true ∧ 2 ≤ c.length := by
  rw [List.any_eq_true]
  constructor
  · rintro ⟨c, hc, hlen⟩
    rw [List.mem_filter] at hc
    exact ⟨c, hc.1, hc.2, by simpa using hlen⟩
  · rintro ⟨c, hc, hdig, hlen⟩
    exact ⟨c, List.mem_filter.mpr ⟨hc, hdig⟩, by simpa using hlen⟩

theorem mem_cleanComponentsStr (comps : List String) (s : String) :
    s ∈ cleanComponentsStr comps ↔
      (s ∈ (comps.map pyStrip).filter matchesComponent
        ∧ ¬((∃ c ∈ (comps.map pyStrip).filter matchesComponent,
              isDigitStr c = true ∧ 2 ≤ c.length)
            ∧ isDigitStr s = true ∧ s.length = 1)) := by
  by_cases hk : ((comps.map pyStrip).filter matchesComponent).isEmpty
  · rw [cleanComponentsStr_eq_empty comps hk]
    rw [List.isEmpty_iff] at hk
    simp [hk]
  · rw [Bool.not_eq_true] at hk
    by_cases hm : (((comps.map pyStrip).filter matchesComponent).filter isDigitStr).any
        (fun c => decide (2 ≤ c.length))
    · rw [cleanComponentsStr_eq_multi comps hk hm, mem_sortComponents, List.mem_dedup,
        List.mem_filter]
      have hmulti := (hasMulti_iff comps).mp hm
      constructor
      · rintro ⟨hmem, hdrop⟩
        refine ⟨hmem, ?_⟩
        rintro ⟨-, hdig, hlen1⟩
        rw [Bool.not_eq_true', Bool.and_eq_false_iff] at hdrop
        rcases hdrop with hdrop | hdrop
        · rw [hdig] at hdrop
          cases hdrop
        · simp at hdrop
          omega
      · rintro ⟨hmem, hnot⟩
        refine ⟨hmem, ?_⟩
        rw [Bool.not_eq_true', Bool.and_eq_false_iff]
        by_cases hdig : isDigitStr s = true
        · right
          simp only [decide_eq_false_iff_not]
          intro hlt
          have hge : 1 ≤ s.length :=
            matchesComponent_ne_empty s (List.mem_filter.mp hmem).2
          exact hnot ⟨hmulti, hdig, by omega⟩
        · left
          simpa using hdig
    · rw [Bool.not_eq_true] at hm
      rw [cleanComponentsStr_eq_nomulti comps hk hm, mem_sortComponents, List.mem_dedup]
      have hnomulti : ¬ ∃ c ∈ (comps.map pyStrip).filter matchesComponent,
          isDigitStr c = true ∧ 2 ≤ c.length := by
        intro hx
        rw [← hasMulti_iff comps] at hx
        rw [hm] at hx
        cases hx
      constructor
      · intro hmem
        exact ⟨hmem, fun hx => hnomulti hx.1⟩
      · intro hmem
        exact hmem.1

theorem nodup_cleanComponentsStr (comps : List String) :
    (cleanComponentsStr comps).Nodup := by
  by_cases hk : ((comps.map pyStrip).filter matchesComponent).isEmpty
  · rw [cleanComponentsStr_eq_empty comps hk]
    exact List.nodup_nil
  · rw [Bool.not_eq_true] at hk
    by_cases hm : (((comps.map pyStrip).filter matchesComponent).filter isDigitStr).any
        (fun c => decide (2 ≤ c.length))
    · rw [cleanComponentsStr_eq_multi comps hk hm]
      exact ((List.perm_insertionSort compLE _).nodup_iff).mpr (List.nodup_dedup _)
    · rw [Bool.not_eq_true] at hm
      rw [cleanComponentsStr_eq_nomulti comps hk hm]
      exact ((List.perm_insertionSort compLE _).nodup_iff).mpr (List.nodup_dedup _)

theorem sorted_cleanComponentsStr (comps : List String) :
    List.Sorted compLE (cleanComponentsStr comps) := by
  by_cases hk : ((comps.map pyStrip).filter matchesComponent).isEmpty
  · rw [cleanComponentsStr_eq_empty comps hk]
    exact List.sorted_nil
  · rw [Bool.not_eq_true] at hk
    by_cases hm : (((comps.map pyStrip).filter matchesComponent).filter isDigitStr).any
        (fun c => decide (2 ≤ c.length))
    · rw [cleanComponentsStr_eq_multi comps hk hm]
      exact List.sorted_insertionSort compLE _
    · rw [Bool.not_eq_true] at hm
      rw [cleanComponentsStr_eq_nomulti comps hk hm]
      exact List.sorted_insertionSort compLE _

/-- C5: component cleaning — a string survives exactly when its stripped
form matches the component regex and is not a single-digit pure number in
the presence of a surviving multi-digit pure number; labels containing a
letter are always kept; the result is deduplicated and sorted by the
component sort key; the spec's example `["1","2","140","abc!!","G"]` yields
`["G","140"]`. -/
theorem C5_clean_components :
    (∀ (comps : List String) (s : String),
      s ∈ cleanComponentsStr comps ↔
        (s ∈ (comps.map pyStrip).filter matchesComponent
          ∧ ¬((∃ c ∈ (comps.map pyStrip).filter matchesComponent,
                isDigitStr c = true ∧ 2 ≤ c.length)
              ∧ isDigitStr s = true ∧ s.length = 1)))
    ∧ (∀ comps : List String, (cleanComponentsStr comps).Nodup)
    ∧ (∀ comps : List String, List.Sorted compLE (cleanComponentsStr comps))
    ∧ (∀ (comps : List String) (s : String) (c : Char),
        s ∈ (comps.map pyStrip).filter matchesComponent → c ∈ s.data →
        c.isAlpha = true → s ∈ cleanComponentsStr comps)
    ∧ cleanComponentsStr ["1", "2", "140", "abc!!", "G"] = ["G", "140"]
    ∧ cleanComponents [.str "1", .str "2", .str "140", .str "abc!!", .str "G"]
        = ["G", "140"] := by
  refine ⟨mem_cleanComponentsStr, nodup_cleanComponentsStr, sorted_cleanComponentsStr,
    ?_, by decide, by decide⟩
  intro comps s c hmem hc halpha
  rw [mem_cleanComponentsStr]
  refine ⟨hmem, ?_⟩
  rintro ⟨-, hdig, -⟩
  rw [isDigitStr_false_of_alpha s c hc halpha] at hdig
  cases hdig

/-- C5, witness: the main theorem's letter-keeping clause applied at the
single surviving label `"G"`. -/
theorem C5_clean_components_witness : "G" ∈ cleanComponentsStr ["G"] :=
  C5_clean_components.2.2.2.1 ["G"] "G" 'G' (by decide) (by decide) (by decide)

/-! ## Theorems: figure id normalization (claim C7) -/


theorem takeWhile_dropWhile_append {p : Char → Bool} (xs ys : List Char)
    (hxs : ∀ x ∈ xs, p x = true)
    (hys : ys = [] ∨ ∃ y ys', ys = y :: ys' ∧ p y = false) :
    (xs ++ ys).takeWhile p = xs ∧ (xs ++ ys).dropWhile p = ys := by
  induction xs with
  | nil =>
    rcases hys with rfl | ⟨y, ys', rfl, hy⟩
    · exact ⟨rfl, rfl⟩
    · simp only [List.nil_append]
      rw [List.takeWhile_cons_of_neg (by simp [hy]), List.dropWhile_cons_of_neg (by simp [hy])]
      exact ⟨rfl, rfl⟩
  | cons x xs ih =>
    have hx : p x = true := hxs x (by simp)
    obtain ⟨ht, hd⟩ := ih (fun a ha => hxs a (by simp [ha]))
    simp only [List.cons_append]
    rw [List.takeWhile_cons_of_pos hx, List.dropWhile_cons_of_pos hx, ht, hd]
    exact ⟨rfl, rfl⟩

theorem isPyWs_false_of_digit (c : Char) (h : c.isDigit = true) :
    isPyWsChar c = false := by
  by_contra hw
  rw [Bool.not_eq_false] at hw
  simp only [isPyWsChar, Bool.or_eq_true, decide_eq_true_eq] at hw
  rcases hw with ((((rfl | rfl) | rfl) | rfl) | rfl) | rfl <;> exact absurd h (by decide)

theorem splitTrailingFig_digit_end (pre ds : List Char) (hne : ds ≠ [])
    (hds : ∀ c ∈ ds, c.isDigit = true)
    (hpre : pre = [] ∨ ∃ pre' c, pre = pre' ++ [c] ∧ c.isDigit = false) :
    splitTrailingFig (pre ++ ds) = some (ds, none) := by
  have hprerev : pre.reverse = [] ∨
      ∃ y ys', pre.reverse = y :: ys' ∧ y.isDigit = false := by
    rcases hpre with rfl | ⟨pre', c, rfl, hc⟩
    · exact Or.inl rfl
    · exact Or.inr ⟨c, pre'.reverse, by simp, hc⟩
  have htake : (ds.reverse ++ pre.reverse).takeWhile Char.isDigit = ds.reverse :=
    (takeWhile_dropWhile_append ds.reverse pre.reverse
      (fun x hx => hds x (List.mem_reverse.mp hx)) hprerev).1
  rcases hrev : ds.reverse with _ | ⟨d, dtl⟩
  · exact absurd (by simpa using congrArg List.reverse hrev) hne
  · have hd : d.isDigit = true := hds d (List.mem_reverse.mp (by rw [hrev]; simp))
    unfold splitTrailingFig
    rw [List.reverse_append, hrev, List.cons_append]
    simp only
    rw [if_pos hd]
    rw [show d :: (dtl ++ pre.reverse) = ds.reverse ++ pre.reverse by rw [hrev]; simp]
    rw [htake, List.reverse_reverse]

theorem splitTrailingFig_letter_end (pre ds ws : List Char) (l : Char) (hne : ds ≠ [])
    (hds : ∀ c ∈ ds, c.isDigit = true) (hws : ∀ c ∈ ws, isPyWsChar c = true)
    (hl : l.isAlpha = true)
    (hpre : pre = [] ∨ ∃ pre' c, pre = pre' ++ [c] ∧ c.isDigit = false) :
    splitTrailingFig (pre ++ ds ++ ws ++ [l]) = some (ds, some l) := by
  have hprerev : pre.reverse = [] ∨
      ∃ y ys', pre.reverse = y :: ys' ∧ y.isDigit = false := by
    rcases hpre with rfl | ⟨pre', c, rfl, hc⟩
    · exact Or.inl rfl
    · exact Or.inr ⟨c, pre'.reverse, by simp, hc⟩
  have hdsrevne : ds.reverse ≠ [] := by
    intro hx
    exact absurd (by simpa using congrArg List.reverse hx) hne
  have hdsrev : ds.reverse = [] ∨
      ∃ y ys', ds.reverse = y :: ys' ∧ isPyWsChar y = false := by
    rcases hx : ds.reverse with _ | ⟨y, ys'⟩
    · exact Or.inl rfl
    · refine Or.inr ⟨y, ys', rfl, ?_⟩
      exact isPyWs_false_of_digit y (hds y (List.mem_reverse.mp (by rw [hx]; simp)))
  have hdrop : (ws.reverse ++ (ds.reverse ++ pre.reverse)).dropWhile isPyWsChar =
      ds.reverse ++ pre.reverse := by
    refine (takeWhile_dropWhile_append ws.reverse (ds.reverse ++ pre.reverse)
      (fun x hx => hws x (List.mem_reverse.mp hx)) ?_).2
    rcases hdsrev with hx | ⟨y, ys', hx, hy⟩
    · exact absurd hx hdsrevne
    · exact Or.inr ⟨y, ys' ++ pre.reverse, by rw [hx]; simp, hy⟩
  have htake : (ds.reverse ++ pre.reverse).takeWhile Char.isDigit = ds.reverse :=
    (takeWhile_dropWhile_append ds.reverse pre.reverse
      (fun x hx => hds x (List.mem_reverse.mp hx)) hprerev).1
  have hldig : l.isDigit = false := isAlpha_not_isDigit l hl
  unfold splitTrailingFig
  rw [show (pre ++ ds ++ ws ++ [l]).reverse =
      l :: (ws.reverse ++ (ds.reverse ++ pre.reverse)) by simp]
  simp only
  rw [if_neg (by simp [hldig]), if_pos hl, hdrop, htake,
    if_neg (by simpa using hdsrevne), List.reverse_reverse]

theorem firstDigitRun_of_split (pre ds post : List Char)
    (hpre : ∀ c ∈ pre, c.isDigit = false) (hne : ds ≠ [])
    (hds : ∀ c ∈ ds, c.isDigit = true)
    (hpost : post = [] ∨ ∃ c post', post = c :: post' ∧ c.isDigit = false) :
    firstDigitRun (pre ++ ds ++ post) = some ds := by
  have hdsconj : ds ++ post = [] ∨
      ∃ y ys', ds ++ post = y :: ys' ∧ (!y.isDigit) = false := by
    rcases hx : ds with _ | ⟨d, dtl⟩
    · exact absurd hx hne
    · exact Or.inr ⟨d, dtl ++ post, by simp,
        by simp [hds d (by rw [hx]; simp)]⟩
  have hdrop : (pre ++ (ds ++ post)).dropWhile (fun c => !c.isDigit) = ds ++ post :=
    (takeWhile_dropWhile_append pre (ds ++ post)
      (fun x hx => by simp [hpre x hx]) hdsconj).2
  have htake : (ds ++ post).takeWhile Char.isDigit = ds :=
    (takeWhile_dropWhile_append ds post hds hpost).1
  unfold firstDigitRun
  rw [List.append_assoc, hdrop]
  rcases hx : ds ++ post with _ | ⟨y, ys⟩
  · rcases hd : ds with _ | _
    · exact absurd hd hne
    · rw [hd] at hx
      cases hx
  · simp only
    rw [← hx, htake]

theorem firstDigitRun_none (cs : List Char) (h : ∀ c ∈ cs, c.isDigit = false) :
    firstDigitRun cs = none := by
  have hdrop : cs.dropWhile (fun c => !c.isDigit) = [] := by
    rw [List.dropWhile_eq_nil_iff]
    intro x hx
    simp [h x hx]
  unfold firstDigitRun
  rw [hdrop]

theorem splitTrailingFig_none_of_no_digit (cs : List Char)
    (h : ∀ c ∈ cs, c.isDigit = false) : splitTrailingFig cs = none := by
  rcases hrev : cs.reverse with _ | ⟨c, rest⟩
  · unfold splitTrailingFig
    rw [hrev]
  · have hc : c.isDigit = false :=
      h c (List.mem_reverse.mp (by rw [hrev]; simp))
    unfold splitTrailingFig
    rw [hrev]
    simp only
    rw [if_neg (by simp [hc])]
    by_cases ha : c.isAlpha
    · rw [if_pos ha]
      have hds : (rest.dropWhile isPyWsChar).takeWhile Char.isDigit = [] := by
        rcases hx : (rest.dropWhile isPyWsChar).takeWhile Char.isDigit with _ | ⟨y, ys⟩
        · rfl
        · exfalso
          have hy : y ∈ (rest.dropWhile isPyWsChar).takeWhile Char.isDigit := by
            rw [hx]; simp
          have hydig : y.isDigit = true := List.mem_takeWhile_imp hy
          have hyrest : y ∈ rest := by
            have h1 := (List.takeWhile_sublist Char.isDigit).subset hy
            exact (List.dropWhile_sublist isPyWsChar).subset h1
          have : y ∈ cs := List.mem_reverse.mp (by rw [hrev]; simp [hyrest])
          rw [h y this] at hydig
          cases hydig
      rw [hds]
      rfl
    · rw [if_neg ha]

theorem splitTrailingFig_none_iff (cs : List Char) :
    splitTrailingFig cs = none ↔
      ¬((∃ pre d, cs = pre ++ [d] ∧ d.isDigit = true)
        ∨ (∃ pre ds ws l, cs = pre ++ ds ++ ws ++ [l] ∧ ds ≠ []
            ∧ (∀ c ∈ ds, c.isDigit = true) ∧ (∀ c ∈ ws, isPyWsChar c = true)
            ∧ l.isAlpha = true)) := by
  constructor
  · intro hn hex
    rcases hex with ⟨pre, d, rfl, hd⟩ | ⟨pre, ds, ws, l, rfl, hne, hds, hws, hl⟩
    · unfold splitTrailingFig at hn
      rw [show (pre ++ [d]).reverse = d :: pre.reverse by simp] at hn
      simp only at hn
      rw [if_pos hd] at hn
      cases hn
    · have hdsrevne : ds.reverse ≠ [] := by
        intro hx
        exact absurd (by simpa using congrArg List.reverse hx) hne
      have hdsrev : ds.reverse = [] ∨
          ∃ y ys', ds.reverse = y :: ys' ∧ isPyWsChar y = false := by
        rcases hx : ds.reverse with _ | ⟨y, ys'⟩
        · exact Or.inl rfl
        · exact Or.inr ⟨y, ys', rfl,
            isPyWs_false_of_digit y (hds y (List.mem_reverse.mp (by rw [hx]; simp)))⟩
      have hdrop : (ws.reverse ++ (ds.reverse ++ pre.reverse)).dropWhile isPyWsChar =
          ds.reverse ++ pre.reverse := by
        refine (takeWhile_dropWhile_append ws.reverse (ds.reverse ++ pre.reverse)
          (fun x hx => hws x (List.mem_reverse.mp hx)) ?_).2
        rcases hdsrev with hx | ⟨y, ys', hx, hy⟩
        · exact absurd hx hdsrevne
        · exact Or.inr ⟨y, ys' ++ pre.reverse, by rw [hx]; simp, hy⟩
      have hldig : l.isDigit = false := isAlpha_not_isDigit l hl
      unfold splitTrailingFig at hn
      rw [show (pre ++ ds ++ ws ++ [l]).reverse =
          l :: (ws.reverse ++ (ds.reverse ++ pre.reverse)) by simp] at hn
      simp only at hn
      rw [if_neg (by simp [hldig]), if_pos hl, hdrop] at hn
      have htne : ((ds.reverse ++ pre.reverse).takeWhile Char.isDigit).isEmpty = false := by
        rcases hx : ds.reverse with _ | ⟨y, ys'⟩
        · exact absurd hx hdsrevne
        · have hy : y.isDigit = true := hds y (List.mem_reverse.mp (by rw [hx]; simp))
          rw [show (y :: ys') ++ pre.reverse = y :: (ys' ++ pre.reverse) from rfl]
          rw [List.takeWhile_cons_of_pos hy]
          rfl
      rw [if_neg (by simp [htne])] at hn
      cases hn
  · intro hnex
    rcases hrev : cs.reverse with _ | ⟨c, rest⟩
    · unfold splitTrailingFig
      rw [hrev]
    · have hcs : cs = rest.reverse ++ [c] := by
        have := congrArg List.reverse hrev
        simpa using this
      unfold splitTrailingFig
      rw [hrev]
      simp only
      by_cases hd : c.isDigit
      · exact absurd (Or.inl ⟨rest.reverse, c, hcs, hd⟩) hnex
      · rw [if_neg (by simp [hd])]
        by_cases ha : c.isAlpha
        · rw [if_pos ha]
          by_cases hds : ((rest.dropWhile isPyWsChar).takeWhile Char.isDigit).isEmpty
          · rw [if_pos hds]
          · exfalso
            apply hnex
            right
            have h1 : rest.takeWhile isPyWsChar ++ rest.dropWhile isPyWsChar = rest :=
              List.takeWhile_append_dropWhile _ _
            have h2 : (rest.dropWhile isPyWsChar).takeWhile Char.isDigit ++
                (rest.dropWhile isPyWsChar).dropWhile Char.isDigit =
                  rest.dropWhile isPyWsChar :=
              List.takeWhile_append_dropWhile _ _
            refine ⟨((rest.dropWhile isPyWsChar).dropWhile Char.isDigit).reverse,
              ((rest.dropWhile isPyWsChar).takeWhile Char.isDigit).reverse,
              (rest.takeWhile isPyWsChar).reverse, c, ?_, ?_, ?_, ?_, ha⟩
            · rw [hcs]
              congr 1
              have hrest : rest = rest.takeWhile isPyWsChar ++
                  ((rest.dropWhile isPyWsChar).takeWhile Char.isDigit ++
                    (rest.dropWhile isPyWsChar).dropWhile Char.isDigit) := by
                rw [h2, h1]
              conv_lhs => rw [hrest]
              simp [List.reverse_append, List.append_assoc]
            · simpa using hds
            · intro x hx
              exact List.mem_takeWhile_imp (List.mem_reverse.mp hx)
            · intro x hx
              exact List.mem_takeWhile_imp (List.mem_reverse.mp hx)
        · rw [if_neg ha]

/-- C7: figure id normalization — when the stripped input ends with a digit
run (optionally followed by whitespace and a single letter), the output is
`FIG. ` + digits (+ uppercased letter); the trailing search fails exactly
when the string has neither form of trailing pattern; in that case the
first digit run anywhere is used with no suffix; with no digit at all the
output is empty; `"Fig 10b"` maps to `"FIG. 10B"` and `"figure"` to `""`. -/
theorem C7_normalize_figure :
    (∀ (fig : String) (pre ds : List Char),
      (pyStrip fig).data = pre ++ ds → ds ≠ [] → (∀ c ∈ ds, c.isDigit = true) →
      (pre = [] ∨ ∃ pre' c, pre = pre' ++ [c] ∧ c.isDigit = false) →
      normalizeFigureStr fig = "FIG. " ++ String.mk ds)
    ∧ (∀ (fig : String) (pre ds ws : List Char) (l : Char),
      (pyStrip fig).data = pre ++ ds ++ ws ++ [l] → ds ≠ [] →
      (∀ c ∈ ds, c.isDigit = true) → (∀ c ∈ ws, isPyWsChar c = true) →
      l.isAlpha = true →
      (pre = [] ∨ ∃ pre' c, pre = pre' ++ [c] ∧ c.isDigit = false) →
      normalizeFigureStr fig = "FIG. " ++ String.mk ds ++ String.mk [l.toUpper])
    ∧ (∀ cs : List Char, splitTrailingFig cs = none ↔
        ¬((∃ pre d, cs = pre ++ [d] ∧ d.isDigit = true)
          ∨ (∃ pre ds ws l, cs = pre ++ ds ++ ws ++ [l] ∧ ds ≠ []
              ∧ (∀ c ∈ ds, c.isDigit = true) ∧ (∀ c ∈ ws, isPyWsChar c = true)
              ∧ l.isAlpha = true)))
    ∧ (∀ (fig : String) (pre ds post : List Char),
      splitTrailingFig (pyStrip fig).data = none →
      (pyStrip fig).data = pre ++ ds ++ post → ds ≠ [] →
      (∀ c ∈ ds, c.isDigit = true) → (∀ c ∈ pre, c.isDigit = false) →
      (post = [] ∨ ∃ c post', post = c :: post' ∧ c.isDigit = false) →
      normalizeFigureStr fig = "FIG. " ++ String.mk ds)
    ∧ (∀ fig : String, (∀ c ∈ (pyStrip fig).data, c.isDigit = false) →
      normalizeFigureStr fig = "")
    ∧ normalizeFigureStr "Fig 10b" = "FIG. 10B"
    ∧ normalizeFigureStr "figure" = "" := by
  refine ⟨?_, ?_, splitTrailingFig_none_iff, ?_, ?_, by decide, by decide⟩
  · intro fig pre ds hdata hne hds hpre
    unfold normalizeFigureStr
    rw [hdata, splitTrailingFig_digit_end pre ds hne hds hpre]
    simp
  · intro fig pre ds ws l hdata hne hds hws hl hpre
    unfold normalizeFigureStr
    rw [hdata, splitTrailingFig_letter_end pre ds ws l hne hds hws hl hpre]
  · intro fig pre ds post hnone hdata hne hds hpre hpost
    unfold normalizeFigureStr
    rw [hnone, hdata, firstDigitRun_of_split pre ds post hpre hne hds hpost]
  · intro fig hnd
    unfold normalizeFigureStr
    rw [splitTrailingFig_none_of_no_digit _ hnd, firstDigitRun_none _ hnd]

/-- C7, witness: the digit-ending clause applied at `"Fig 12"`. -/
theorem C7_normalize_figure_witness :
    normalizeFigureStr "Fig 12" = "FIG. " ++ String.mk ['1', '2'] :=
  C7_normalize_figure.1 "Fig 12" ['F', 'i', 'g', ' '] ['1', '2'] (by decide)
    (by decide) (by decide) (Or.inr ⟨['F', 'i', 'g'], ' ', by decide, by decide⟩)

/-! ## Theorems: merge and finalize (claim C1) -/


theorem alookup_cons (k' : Nat × String) (r : MRecord)
    (rest : List ((Nat × String) × MRecord)) (k : Nat × String) :
    alookup ((k', r) :: rest) k = if k' = k then some r else alookup rest k := rfl

theorem aupdate_cons (k' : Nat × String) (r : MRecord)
    (rest : List ((Nat × String) × MRecord)) (k : Nat × String) (v : MRecord) :
    aupdate ((k', r) :: rest) k v =
      if k' = k then (k', v) :: rest else (k', r) :: aupdate rest k v := rfl

theorem alookup_eq_none_iff (m : List ((Nat × String) × MRecord)) (k : Nat × String) :
    alookup m k = none ↔ k ∉ m.map Prod.fst := by
  induction m with
  | nil => simp [alookup]
  | cons kr rest ih =>
    obtain ⟨k', r⟩ := kr
    rw [alookup_cons]
    by_cases h : k' = k
    · subst h
      simp
    · rw [if_neg h, ih]
      simp only [List.map_cons, List.mem_cons]
      constructor
      · intro hn
        rintro (rfl | hx)
        · exact h rfl
        · exact hn hx
      · intro hn hx
        exact hn (Or.inr hx)

theorem alookup_isSome_of_mem (m : List ((Nat × String) × MRecord)) (k : Nat × String)
    (h : k ∈ m.map Prod.fst) : ∃ r, alookup m k = some r := by
  rcases hl : alookup m k with _ | r
  · exact absurd h ((alookup_eq_none_iff m k).mp hl)
  · exact ⟨r, rfl⟩

theorem map_fst_aupdate (m : List ((Nat × String) × MRecord)) (k : Nat × String)
    (v : MRecord) : (aupdate m k v).map Prod.fst = m.map Prod.fst := by
  induction m with
  | nil => rfl
  | cons kr rest ih =>
    obtain ⟨k', r⟩ := kr
    rw [aupdate_cons]
    by_cases h : k' = k
    · rw [if_pos h]
      simp
    · rw [if_neg h]
      simp [ih]

theorem alookup_aupdate_self (m : List ((Nat × String) × MRecord)) (k : Nat × String)
    (v r0 : MRecord) (h : alookup m k = some r0) :
    alookup (aupdate m k v) k = some v := by
  induction m with
  | nil => cases h
  | cons kr rest ih =>
    obtain ⟨k', r⟩ := kr
    rw [alookup_cons] at h
    rw [aupdate_cons]
    by_cases hk : k' = k
    · rw [if_pos hk, alookup_cons, if_pos hk]
    · rw [if_neg hk] at h
      rw [if_neg hk, alookup_cons, if_neg hk]
      exact ih h

theorem alookup_aupdate_other (m : List ((Nat × String) × MRecord)) (k k' : Nat × String)
    (v : MRecord) (h : k' ≠ k) : alookup (aupdate m k v) k' = alookup m k' := by
  induction m with
  | nil => rfl
  | cons kr rest ih =>
    obtain ⟨k'', r⟩ := kr
    rw [aupdate_cons]
    by_cases hk : k'' = k
    · rw [if_pos hk, alookup_cons, alookup_cons,
        if_neg (by rw [hk]; exact fun hx => h hx.symm),
        if_neg (by rw [hk]; exact fun hx => h hx.symm)]
    · rw [if_neg hk, alookup_cons, alookup_cons]
      by_cases hk' : k'' = k'
      · rw [if_pos hk', if_pos hk']
      · rw [if_neg hk', if_neg hk']
        exact ih

theorem alookup_append_self (m : List ((Nat × String) × MRecord)) (k : Nat × String)
    (r : MRecord) (h : alookup m k = none) : alookup (m ++ [(k, r)]) k = some r := by
  induction m with
  | nil => simp [alookup_cons, alookup]
  | cons kr rest ih =>
    obtain ⟨k', r'⟩ := kr
    rw [alookup_cons] at h
    rw [List.cons_append, alookup_cons]
    by_cases hk : k' = k
    · rw [if_pos hk] at h
      cases h
    · rw [if_neg hk] at h
      rw [if_neg hk]
      exact ih h

theorem alookup_append_other (m : List ((Nat × String) × MRecord)) (k k' : Nat × String)
    (r : MRecord) (h : k' ≠ k) : alookup (m ++ [(k, r)]) k' = alookup m k' := by
  induction m with
  | nil =>
    simp only [List.nil_append]
    rw [alookup_cons, if_neg (show ¬ k = k' from fun hx => h hx.symm)]
  | cons kr rest ih =>
    obtain ⟨k'', r'⟩ := kr
    rw [List.cons_append, alookup_cons, alookup_cons]
    by_cases hk : k'' = k'
    · rw [if_pos hk, if_pos hk]
    · rw [if_neg hk, if_neg hk]
      exact ih

theorem mergeEntries_concat (es : List (Nat × HEntry)) (pe : Nat × HEntry) :
    mergeEntries (es ++ [pe]) = mergeStep pe.1 (mergeEntries es) pe.2 := by
  unfold mergeEntries
  rw [List.foldl_append]
  rfl

theorem mergeStep_update (pno : Nat) (m : List ((Nat × String) × MRecord)) (e : HEntry)
    (r0 : MRecord) (hfig : normalizeFigure e.figure ≠ "")
    (h : alookup m (pno, normalizeFigure e.figure) = some r0) :
    mergeStep pno m e = aupdate m (pno, normalizeFigure e.figure)
      ⟨r0.page, r0.figure,
        sortComponents ((r0.components ++ cleanComponents e.components).dedup),
        r0.hierarchy ++ e.hierarchy.getD []⟩ := by
  simp only [mergeStep]
  rw [if_neg hfig, h]
  rfl

theorem mergeStep_new (pno : Nat) (m : List ((Nat × String) × MRecord)) (e : HEntry)
    (hfig : normalizeFigure e.figure ≠ "")
    (h : alookup m (pno, normalizeFigure e.figure) = none) :
    mergeStep pno m e = m ++ [((pno, normalizeFigure e.figure),
      ⟨pno, normalizeFigure e.figure,
        sortComponents ((cleanComponents e.components).dedup),
        e.hierarchy.getD []⟩)] := by
  simp only [mergeStep]
  rw [if_neg hfig, h]
  rfl

/-- The `(page, normalized figure)` key an entry is merged under. -/
def entryKey (pe : Nat × HEntry) : Nat × String := (pe.1, normalizeFigure pe.2.figure)

theorem alookup_mem (m : List ((Nat × String) × MRecord)) (k : Nat × String)
    (r : MRecord) (h : alookup m k = some r) : k ∈ m.map Prod.fst := by
  by_contra hk
  rw [(alookup_eq_none_iff m k).mpr hk] at h
  cases h

theorem filter_concat_of_neg {α : Type} (p : α → Bool) (l : List α) (a : α)
    (h : p a = false) : (l ++ [a]).filter p = l.filter p := by
  rw [List.filter_append]
  simp [h]

theorem filter_concat_of_pos {α : Type} (p : α → Bool) (l : List α) (a : α)
    (h : p a = true) : (l ++ [a]).filter p = l.filter p ++ [a] := by
  rw [List.filter_append]
  simp [h]

theorem mergeEntries_spec (es : List (Nat × HEntry)) :
    ((mergeEntries es).map Prod.fst).Nodup
    ∧ (∀ k : Nat × String, k ∈ (mergeEntries es).map Prod.fst ↔
        (k.2 ≠ "" ∧ ∃ pe ∈ es, entryKey pe = k))
    ∧ (∀ (k : Nat × String) (r : MRecord), alookup (mergeEntries es) k = some r →
        r.page = k.1 ∧ r.figure = k.2
        ∧ (∀ s, s ∈ r.components ↔
            s ∈ ((es.filter (fun pe => decide (entryKey pe = k))).map
              (fun pe => cleanComponents pe.2.components)).flatten)
        ∧ r.components.Nodup ∧ List.Sorted compLE r.components
        ∧ r.hierarchy = ((es.filter (fun pe => decide (entryKey pe = k))).map
            (fun pe => pe.2.hierarchy.getD [])).flatten) := by
  induction es using List.reverseRecOn with
  | nil =>
    refine ⟨List.nodup_nil, ?_, ?_⟩
    · intro k
      simp [mergeEntries]
    · intro k r h
      cases h
  | append_singleton es pe ih =>
    obtain ⟨ihnd, ihmem, ihrec⟩ := ih
    obtain ⟨p, e⟩ := pe
    by_cases hfig : normalizeFigure e.figure = ""
    · -- the entry is dropped: state, keys and all records are unchanged
      have hstep : mergeEntries (es ++ [(p, e)]) = mergeEntries es := by
        rw [mergeEntries_concat]
        exact mergeStep_skip p (mergeEntries es) e hfig
      rw [hstep]
      refine ⟨ihnd, ?_, ?_⟩
      · intro k
        rw [ihmem k]
        constructor
        · rintro ⟨hk2, pe', hpe', hkey⟩
          exact ⟨hk2, pe', List.mem_append.mpr (Or.inl hpe'), hkey⟩
        · rintro ⟨hk2, pe', hpe', hkey⟩
          rcases List.mem_append.mp hpe' with hin | hin
          · exact ⟨hk2, pe', hin, hkey⟩
          · exfalso
            rw [List.mem_singleton.mp hin] at hkey
            apply hk2
            rw [← hkey]
            simp [entryKey, hfig]
      · intro k r h
        have hk2 : k.2 ≠ "" :=
          ((ihmem k).mp (alookup_mem _ _ _ h)).1
        have hne : decide (entryKey (p, e) = k) = false := by
          simp only [decide_eq_false_iff_not]
          intro hkey
          apply hk2
          rw [← hkey]
          simp [entryKey, hfig]
        rw [filter_concat_of_neg (fun pe => decide (entryKey pe = k)) es (p, e) hne]
        exact ihrec k r h
    · set k₀ : Nat × String := (p, normalizeFigure e.figure) with hk₀
      have hkey₀ : entryKey (p, e) = k₀ := rfl
      rcases hl : alookup (mergeEntries es) k₀ with _ | r0
      · -- new key: the record is appended at the end
        have hstep : mergeEntries (es ++ [(p, e)]) =
            mergeEntries es ++ [(k₀, ⟨p, normalizeFigure e.figure,
              sortComponents ((cleanComponents e.components).dedup),
              e.hierarchy.getD []⟩)] := by
          rw [mergeEntries_concat]
          exact mergeStep_new p (mergeEntries es) e hfig hl
        have hnotmem : k₀ ∉ (mergeEntries es).map Prod.fst :=
          (alookup_eq_none_iff _ _).mp hl
        have hfilter_es : es.filter (fun pe => decide (entryKey pe = k₀)) = [] := by
          rw [List.filter_eq_nil_iff]
          intro pe' hpe'
          simp only [decide_eq_true_eq]
          intro hkey
          exact hnotmem ((ihmem k₀).mpr ⟨by simpa [hk₀] using hfig, pe', hpe', hkey⟩)
        rw [hstep]
        refine ⟨?_, ?_, ?_⟩
        · rw [List.map_append]
          simp only [List.map_cons, List.map_nil]
          rw [List.nodup_append]
          exact ⟨ihnd, List.nodup_singleton _, by simpa using hnotmem⟩
        · intro k
          rw [List.map_append]
          simp only [List.map_cons, List.map_nil]
          rw [List.mem_append, ihmem k, List.mem_singleton]
          constructor
          · rintro (⟨hk2, pe', hpe', hkey⟩ | rfl)
            · exact ⟨hk2, pe', List.mem_append.mpr (Or.inl hpe'), hkey⟩
            · exact ⟨by simpa [hk₀] using hfig, (p, e),
                List.mem_append.mpr (Or.inr (by simp)), hkey₀⟩
          · rintro ⟨hk2, pe', hpe', hkey⟩
            rcases List.mem_append.mp hpe' with hin | hin
            · exact Or.inl ⟨hk2, pe', hin, hkey⟩
            · right
              rw [List.mem_singleton.mp hin] at hkey
              rw [← hkey, hkey₀]
        · intro k r h
          by_cases hkk : k = k₀
          · rw [hkk] at h ⊢
            rw [alookup_append_self _ _ _ hl] at h
            obtain rfl := (Option.some.inj h).symm
            have hfilter : (es ++ [(p, e)]).filter
                (fun pe => decide (entryKey pe = k₀)) = [(p, e)] := by
              rw [filter_concat_of_pos (fun pe => decide (entryKey pe = k₀)) es (p, e)
                (by simp [hkey₀]), hfilter_es]
              rfl
            rw [hfilter]
            refine ⟨rfl, rfl, ?_, ?_, ?_, ?_⟩
            · intro s
              rw [mem_sortComponents, List.mem_dedup]
              simp
            · exact ((List.perm_insertionSort compLE _).nodup_iff).mpr
                (List.nodup_dedup _)
            · exact List.sorted_insertionSort compLE _
            · simp
          · rw [alookup_append_other _ _ _ _ hkk] at h
            have hne : decide (entryKey (p, e) = k) = false := by
              simp only [decide_eq_false_iff_not]
              rw [hkey₀]
              exact fun hx => hkk hx.symm
            rw [filter_concat_of_neg (fun pe => decide (entryKey pe = k)) es (p, e) hne]
            exact ihrec k r h
      · -- existing key: the record is updated in place
        have hstep : mergeEntries (es ++ [(p, e)]) =
            aupdate (mergeEntries es) k₀ ⟨r0.page, r0.figure,
              sortComponents ((r0.components ++ cleanComponents e.components).dedup),
              r0.hierarchy ++ e.hierarchy.getD []⟩ := by
          rw [mergeEntries_concat]
          exact mergeStep_update p (mergeEntries es) e r0 hfig hl
        have hmem₀ : k₀ ∈ (mergeEntries es).map Prod.fst := alookup_mem _ _ _ hl
        obtain ⟨hpage0, hfig0, hcomps0, hnd0, hsort0, hhier0⟩ := ihrec k₀ r0 hl
        rw [hstep]
        refine ⟨?_, ?_, ?_⟩
        · rw [map_fst_aupdate]
          exact ihnd
        · intro k
          rw [map_fst_aupdate, ihmem k]
          constructor
          · rintro ⟨hk2, pe', hpe', hkey⟩
            exact ⟨hk2, pe', List.mem_append.mpr (Or.inl hpe'), hkey⟩
          · rintro ⟨hk2, pe', hpe', hkey⟩
            rcases List.mem_append.mp hpe' with hin | hin
            · exact ⟨hk2, pe', hin, hkey⟩
            · have hk : k = k₀ := by
                rw [← hkey, List.mem_singleton.mp hin, hkey₀]
              rw [hk]
              exact ⟨by rw [← hk]; exact hk2, ((ihmem k₀).mp hmem₀).2⟩
        · intro k r h
          by_cases hkk : k = k₀
          · rw [hkk] at h ⊢
            rw [alookup_aupdate_self _ _ _ r0 hl] at h
            obtain rfl := (Option.some.inj h).symm
            have hfilter : (es ++ [(p, e)]).filter
                (fun pe => decide (entryKey pe = k₀)) =
                es.filter (fun pe => decide (entryKey pe = k₀)) ++ [(p, e)] :=
              filter_concat_of_pos (fun pe => decide (entryKey pe = k₀)) es (p, e)
                (by simp [hkey₀])
            rw [hfilter]
            refine ⟨hpage0, hfig0, ?_, ?_, ?_, ?_⟩
            · intro s
              rw [mem_sortComponents, List.mem_dedup, List.map_append,
                List.flatten_append]
              simp [hcomps0 s]
            · exact ((List.perm_insertionSort compLE _).nodup_iff).mpr
                (List.nodup_dedup _)
            · exact List.sorted_insertionSort compLE _
            · rw [List.map_append, List.flatten_append, hhier0]
              simp
          · rw [alookup_aupdate_other _ _ _ _ hkk] at h
            have hne : decide (entryKey (p, e) = k) = false := by
              simp only [decide_eq_false_iff_not]
              rw [hkey₀]
              exact fun hx => hkk hx.symm
            rw [filter_concat_of_neg (fun pe => decide (entryKey pe = k)) es (p, e) hne]
            exact ihrec k r h

theorem runMerge_eq (pages : List (Nat × List HEntry)) :
    runMerge pages =
      mergeEntries (pages.flatMap (fun pg => pg.2.map (fun e => (pg.1, e)))) := by
  suffices h : ∀ (m : List ((Nat × String) × MRecord)) (ps : List (Nat × List HEntry)),
      ps.foldl (fun m pg => pg.2.foldl (fun m' e => mergeStep pg.1 m' e) m) m =
      (ps.flatMap (fun pg => pg.2.map (fun e => (pg.1, e)))).foldl
        (fun m pe => mergeStep pe.1 m pe.2) m by
    exact h [] pages
  intro m ps
  induction ps generalizing m with
  | nil => rfl
  | cons pg rest ih =>
    rw [List.foldl_cons, List.flatMap_cons, List.foldl_append, ih, List.foldl_map]

theorem mem_sortedRecKeys (m : List ((Nat × String) × MRecord)) (k : Nat × String) :
    k ∈ sortedRecKeys m ↔ k ∈ m.map Prod.fst :=
  (List.perm_insertionSort finalKeyLE (m.map Prod.fst)).mem_iff

theorem finalRecords_keys (es : List (Nat × HEntry)) :
    (finalRecords es).map (fun r => (r.page, r.figure)) =
      sortedRecKeys (mergeEntries es) := by
  unfold finalRecords
  rw [List.map_map]
  have hid : ∀ k ∈ sortedRecKeys (mergeEntries es),
      ((fun r => (r.page, r.figure)) ∘
        (fun k => (alookup (mergeEntries es) k).getD ⟨0, "", [], []⟩)) k = id k := by
    intro k hk
    have hmem : k ∈ (mergeEntries es).map Prod.fst :=
      (mem_sortedRecKeys (mergeEntries es) k).mp hk
    obtain ⟨r, hr⟩ := alookup_isSome_of_mem (mergeEntries es) k hmem
    obtain ⟨hp, hf, -⟩ := (mergeEntries_spec es).2.2 k r hr
    simp only [Function.comp_apply, hr, Option.getD_some, id_eq, hp, hf]
  rw [List.map_congr_left hid, List.map_id]

/-- C1: merge/finalize contract of the orchestrator — for every entry
sequence, the keys of the merge map are pairwise distinct (one figure
record per `(page, normalized figure)` key) and a key is present exactly
when some entry with a nonempty normalized figure id carries it; each
record holds the key's page and figure id, a component list that is the
deduplicated set union of the matching entries' cleaned component lists,
sorted by the canonical component key, and a hierarchy list that is the
plain concatenation of the matching entries' hierarchy lists; the nested
page loop equals the merge over the flattened entry sequence; the final
output lists the records by ascending `(page, figure sort key)` and
serializes each with field order components, hierarchy, figure, page; the
spec's two-entry example merges into one record with components
`["10","20","30"]` and concatenated hierarchy. -/
theorem C1_merge_finalize :
    (∀ es : List (Nat × HEntry),
      ((mergeEntries es).map Prod.fst).Nodup
      ∧ (∀ k : Nat × String, k ∈ (mergeEntries es).map Prod.fst ↔
          (k.2 ≠ "" ∧ ∃ pe ∈ es, entryKey pe = k)))
    ∧ (∀ (es : List (Nat × HEntry)) (k : Nat × String) (r : MRecord),
        alookup (mergeEntries es) k = some r →
        r.page = k.1 ∧ r.figure = k.2
        ∧ (∀ s, s ∈ r.components ↔
            s ∈ ((es.filter (fun pe => decide (entryKey pe = k))).map
              (fun pe => cleanComponents pe.2.components)).flatten)
        ∧ r.components.Nodup ∧ List.Sorted compLE r.components
        ∧ r.hierarchy = ((es.filter (fun pe => decide (entryKey pe = k))).map
            (fun pe => pe.2.hierarchy.getD [])).flatten)
    ∧ (∀ pages : List (Nat × List HEntry), runMerge pages =
        mergeEntries (pages.flatMap (fun pg => pg.2.map (fun e => (pg.1, e)))))
    ∧ (∀ es : List (Nat × HEntry),
        (finalRecords es).map (fun r => (r.page, r.figure)) =
            sortedRecKeys (mergeEntries es)
        ∧ List.Sorted finalKeyLE (sortedRecKeys (mergeEntries es))
        ∧ (sortedRecKeys (mergeEntries es)).Nodup
        ∧ finalOutput es = (finalRecords es).map serializeRecord
        ∧ ∀ item ∈ finalOutput es,
            item.map Prod.fst = ["components", "hierarchy", "figure", "page"])
    ∧ finalOutput
        [(1, ⟨JValue.str "FIG. 2", [JValue.str "10", JValue.str "20"], none⟩),
         (1, ⟨JValue.str "FIG. 2", [JValue.str "20", JValue.str "30"],
            some [JValue.str "h1"]⟩)] =
      [[("components", JValue.arr [JValue.str "10", JValue.str "20", JValue.str "30"]),
        ("hierarchy", JValue.arr [JValue.str "h1"]),
        ("figure", JValue.str "FIG. 2"),
        ("page", JValue.num "1")]] := by
  refine ⟨fun es => ⟨(mergeEntries_spec es).1, (mergeEntries_spec es).2.1⟩,
    fun es => (mergeEntries_spec es).2.2, runMerge_eq, ?_, by rfl⟩
  intro es
  refine ⟨finalRecords_keys es, List.sorted_insertionSort finalKeyLE _,
    ((List.perm_insertionSort finalKeyLE _).nodup_iff).mpr (mergeEntries_spec es).1,
    rfl, ?_⟩
  intro item hitem
  obtain ⟨r, -, rfl⟩ := List.mem_map.mp hitem
  rfl

/-- C1, witness: the key-presence clause applied at a single concrete
entry: the key `(1, "FIG. 2")` is present in the merge map. -/
theorem C1_merge_finalize_witness :
    (1, "FIG. 2") ∈ (mergeEntries
      [(1, ⟨JValue.str "FIG. 2", [JValue.str "10"], none⟩)]).map Prod.fst :=
  ((C1_merge_finalize.1
      [(1, ⟨JValue.str "FIG. 2", [JValue.str "10"], none⟩)]).2 (1, "FIG. 2")).mpr
    ⟨by decide, (1, ⟨JValue.str "FIG. 2", [JValue.str "10"], none⟩),
      List.mem_singleton.mpr rfl, by decide⟩

end PatentParser
